import Mathlib

/-
  Verification development for the comic-reader chat bot
  (source files: bot.py and restructure_links.py).

  The pure logic of the source is shallowly embedded here:
  * Python strings are lists of characters (`Str`);
  * JSON objects are association lists in document order (CPython dicts
    preserve insertion order, and JSON object keys are unique);
  * `sorted(..., key=f)` — CPython's stable sort — is modelled by a stable
    insertion sort `pySorted`, which produces the same output as any stable
    sort for a total preorder;
  * fallible operations return `Option`.
-/

namespace CB

/-- Python strings, modelled as lists of characters. -/
abbrev Str := List Char

/- ===================================================================
   Generic stable sort, modelling CPython's `sorted(xs, key=f)`.
   `le a b` must mean "a may come before b", i.e. `¬ (key b < key a)`;
   the insert places a new element before the first existing element it
   is `le`-below-or-tied-with, which is exactly stable-sort behaviour.
   =================================================================== -/

/-- Insert `a` into a sorted list, before the first element `b` with `le a b`. -/
def insertLe (le : α → α → Bool) (a : α) : List α → List α
  | [] => [a]
  | b :: l => if le a b then a :: b :: l else b :: insertLe le a l

/-- Stable sort by the boolean "may come before" relation `le`.
    Models CPython's stable `sorted`. -/
def pySorted (le : α → α → Bool) : List α → List α
  | [] => []
  | x :: xs => insertLe le x (pySorted le xs)

/- ===================================================================
   String helpers (Python str methods used by bot.py).
   =================================================================== -/

/-- Python `str.lower()`; `Char.toLower` lower-cases the ASCII range,
    which covers every string the source compares. -/
def lowerStr (s : Str) : Str := s.map Char.toLower

/-- Whitespace test used by Python `str.strip()`. -/
def isWS (c : Char) : Bool := c.isWhitespace

/-- Python `str.strip()`: drop whitespace from both ends. -/
def pyStrip (s : Str) : Str :=
  ((s.dropWhile isWS).reverse.dropWhile isWS).reverse

/-- Python's lexicographic comparison of two sequences by a strict element
    order: skip equal heads; the first differing position decides by the
    element order; a strict initial segment is smaller. -/
def lexLt [DecidableEq κ] (eLt : κ → κ → Bool) : List κ → List κ → Bool
  | [], [] => false
  | [], _ :: _ => true
  | _ :: _, [] => false
  | a :: as, b :: bs => if a = b then lexLt eLt as bs else eLt a b

/-- Strict comparison of characters by code point. -/
def chLt (a b : Char) : Bool := decide (a < b)

/-- Python string `<`: lexicographic comparison by code point. -/
def strLt (a b : Str) : Bool := lexLt chLt a b

/-- `a` may come before `b` in an ascending sort: `¬ (b < a)`. -/
def strLe (a b : Str) : Bool := !(strLt b a)

/-- Does `hay` start with `needle`? (helper for the substring test) -/
def startsWithL : Str → Str → Bool
  | [], _ => true
  | _ :: _, [] => false
  | a :: as, b :: bs => (a == b) && startsWithL as bs

/-- Python `needle in hay` on strings: contiguous substring test. -/
def containsSub (needle : Str) : Str → Bool
  | [] => needle.isEmpty
  | c :: rest => startsWithL needle (c :: rest) || containsSub needle rest

/- ===================================================================
   natural_sort_key (bot.py lines 88-95):
     re.split(r"(\d+)", s) splits the string at the maximal digit runs,
     keeping the captured runs; the list therefore alternates
     non-digit pieces (possibly empty at either end) with non-empty
     digit runs.  Each piece becomes `int(piece)` if it is all digits,
     else `piece.lower()`.
   =================================================================== -/

/-- One element of a natural-sort key: a lower-cased text run or the
    integer value of a digit run. -/
inductive NSKey where
  | strK : Str → NSKey
  | numK : Nat → NSKey
deriving DecidableEq, Repr

/-- Decimal value of a digit character. -/
def digitVal (c : Char) : Nat := c.toNat - 48

/-- Python `int(text)` on a string of decimal digits. -/
def digitsToNat (t : Str) : Nat := t.foldl (fun a c => 10 * a + digitVal c) 0

/-- Model of `re.split(r"(\d+)", s)`: the pieces of `s` around the maximal
    digit runs, interleaved with those runs (re.split keeps the captured
    groups, and keeps the empty pieces that arise at the ends).  Computed by
    a right fold: the result always starts with a (possibly empty) non-digit
    piece and alternates with non-empty digit runs; prepending a character
    either extends the first piece, extends the first digit run, or opens a
    new digit run. -/
def pySplitDigits : Str → List Str
  | [] => [[]]
  | c :: cs =>
    match pySplitDigits cs with
    | [] => [[]]   -- unreachable: the result is always non-empty
    | p :: ps =>
      if !c.isDigit then (c :: p) :: ps
      else
        match p, ps with
        | [], d :: ps' => [] :: (c :: d) :: ps'
        | _, _ => [] :: [c] :: p :: ps

/-- bot.py `natural_sort_key`: split at digit runs; digit runs become
    integers, other pieces are lower-cased. -/
def natural_sort_key (cs : Str) : List NSKey :=
  (pySplitDigits cs).map
    (fun t => if (!t.isEmpty) && t.all Char.isDigit
              then NSKey.numK (digitsToNat t)
              else NSKey.strK (lowerStr t))

/-- Comparison of single key elements.  Python compares ints numerically and
    strings lexicographically; comparing an int with a str raises TypeError,
    which is unreachable here because every natural-sort key alternates text
    elements (even positions) and integer elements (odd positions), so two
    keys never present different kinds at the same position.  The mixed case
    is given a fixed arbitrary value. -/
def nskeyLt : NSKey → NSKey → Bool
  | .numK a, .numK b => decide (a < b)
  | .strK a, .strK b => strLt a b
  | .numK _, .strK _ => true
  | .strK _, .numK _ => false

/-- Python list `<` on natural-sort keys: lexicographic, shorter list first
    when one is a proper initial segment of the other. -/
def keyLt (a b : List NSKey) : Bool := lexLt nskeyLt a b

/-- "May come before" for the natural order: `¬ (b < a)`. -/
def keyLe (a b : List NSKey) : Bool := !(keyLt b a)

/-- bot.py `sorted(keys, key=natural_sort_key)`. -/
def sortByNatKey (l : List Str) : List Str :=
  pySorted (fun a b => keyLe (natural_sort_key a) (natural_sort_key b)) l

/-- Checker for the alternation shape of `pySplitDigits` output: starting in
    state `false` the pieces alternate digit-free pieces and non-empty
    all-digit pieces. -/
def altRuns : Bool → List Str → Bool
  | _, [] => true
  | false, t :: rest => t.all (fun c => !c.isDigit) && altRuns true rest
  | true, t :: rest => (!t.isEmpty) && t.all Char.isDigit && altRuns false rest

/- ===================================================================
   Catalog and link-store model (data.json / links.json).
   JSON objects are association lists in document order; a load that
   fails (missing file, corrupt JSON) yields `none`.
   =================================================================== -/

/-- One comic of data.json: optional "title" and a chapter-key → label map. -/
structure ComicData where
  title : Option Str
  chapters : List (Str × Str)
deriving DecidableEq, Repr

/-- One collection of data.json: optional "title" and "icon", plus the
    comic-key → comic map. -/
structure CollectionData where
  title : Option Str
  icon : Option Str
  comics : List (Str × ComicData)
deriving DecidableEq, Repr

abbrev Catalog := List (Str × CollectionData)

/-- links.json: collection → comic → chapter → ordered URI list. -/
abbrev LinksFile := List (Str × List (Str × List (Str × List Str)))

/-- Python `dict.get(k)` on an association list: value at the first
    matching key. -/
def lookupK {β : Type _} (k : Str) : List (Str × β) → Option β
  | [] => none
  | (k', v) :: rest => if k' = k then some v else lookupK k rest

/-- bot.py `get_all_data`: `load_json_async(DATA_JSON) or {}` — a missing or
    unreadable file loads as None and is replaced by the empty catalog. -/
def get_all_data (file : Option Catalog) : Catalog := file.getD []

/-- bot.py `get_comics_data`: `data.get(collection_key, {}).get("comics", {})`. -/
def get_comics_data (file : Option Catalog) (ck : Str) : List (Str × ComicData) :=
  match lookupK ck (get_all_data file) with
  | some cd => cd.comics
  | none => []

/-- bot.py `get_chapters_data`: `comics.get(comic_key, {}).get("chapters", {})`. -/
def get_chapters_data (file : Option Catalog) (ck ik : Str) : List (Str × Str) :=
  match lookupK ik (get_comics_data file ck) with
  | some c => c.chapters
  | none => []

/-- bot.py `get_links_list`:
    `(links or {}).get(ck, {}).get(comic, {}).get(chapter, [])`. -/
def get_links_list (links : Option LinksFile) (ck ik chk : Str) : List Str :=
  let l1 := (lookupK ck (links.getD [])).getD []
  let l2 := (lookupK ik l1).getD []
  (lookupK chk l2).getD []

/- ===================================================================
   Pagination (bot.py get_comics_markup lines 308-313 and
   get_chapter_buttons_markup lines 382-388).
   =================================================================== -/

/-- The zero-based slice `keys[(page-1)*ps : page*ps]` together with
    `total_pages = math.ceil(len(keys) / ps)`.  For a 1-based `page` the
    Python slice start is non-negative, so drop/take agrees with it; the
    Nat formula `(len + ps - 1) / ps` equals the real ceiling for ps > 0
    (proved below). -/
def paginate (keys : List α) (pageSize page : Nat) : List α × Nat :=
  ((keys.drop ((page - 1) * pageSize)).take pageSize,
   (keys.length + pageSize - 1) / pageSize)

/-- The page numbers put on the « / » navigation buttons by both markup
    builders when the current state is (page, total_pages): `page - 1` only
    when `page > 1`, `page + 1` only when `page < total_pages`, and no
    buttons at all when `total_pages ≤ 1`. -/
def navPages (page total : Nat) : List Nat :=
  if 1 < total then
    (if 1 < page then [page - 1] else []) ++ (if page < total then [page + 1] else [])
  else []

/- ===================================================================
   Chapter resolution (bot.py read_chapter_handler lines 630-649).
   =================================================================== -/

/-- bot.py `sorted(chapters_data.keys(), key=natural_sort_key)`. -/
def chapterKeysSorted (chapters : List (Str × Str)) : List Str :=
  sortByNatKey (chapters.map Prod.fst)

inductive ReadResolution where
  | invalidChapter : ReadResolution
  | resolved : Str → List Str → ReadResolution
deriving DecidableEq, Repr

/-- The token's `page` is a 1-based ordinal into the naturally sorted
    chapter-key list: `chapter_index = page - 1`; out of range → the
    "Неверный номер главы" alert and no read at all; otherwise the selected
    chapter's link list is fetched for the publication step. -/
def read_chapter (chapters : List (Str × Str)) (links : Option LinksFile)
    (ck ik : Str) (page : Int) : ReadResolution :=
  let keys := chapterKeysSorted chapters
  if page - 1 < 0 ∨ (keys.length : Int) ≤ page - 1 then ReadResolution.invalidChapter
  else
    let key := keys.getD (page - 1).toNat []
    ReadResolution.resolved key (get_links_list links ck ik key)

/- ===================================================================
   Random pick (bot.py get_all_comic_identifiers lines 178-190 and
   random_comic_handler lines 479-514).
   =================================================================== -/

/-- Flatten every (collection, comic) pair of the catalog into
    (collection_key, comic_key, title), title defaulting to the key. -/
def get_all_comic_identifiers (data : Catalog) : List (Str × Str × Str) :=
  data.flatMap (fun p => p.2.comics.map (fun q => (p.1, q.1, q.2.title.getD q.1)))

inductive RandomOutcome where
  | emptyCatalog : RandomOutcome
  | picked : Str → Str → Str → RandomOutcome
deriving DecidableEq, Repr

/-- random_comic_handler: empty candidate list → the empty-catalog notice;
    otherwise `random.choice(all_comics)`, i.e. the element at a uniformly
    drawn index.  The draw is modelled by the index `i`, reduced mod the
    length so the function is total (`i % n = i` for the indices `i < n`
    the library produces). -/
def random_comic (data : Catalog) (i : Nat) : RandomOutcome :=
  let all := get_all_comic_identifiers data
  if all = [] then RandomOutcome.emptyCatalog
  else
    match all[i % all.length]? with
    | some t => RandomOutcome.picked t.1 t.2.1 t.2.2
    | none => RandomOutcome.emptyCatalog   -- unreachable: i % length < length

/- ===================================================================
   Search (bot.py process_search_query lines 771-822).
   =================================================================== -/

inductive SearchOutcome where
  | noQuery : SearchOutcome
  | notFound : SearchOutcome
  | found : List (Str × Str × Str) → SearchOutcome
deriving DecidableEq, Repr

/-- The scan: every (collection, comic) whose lower-cased title (default:
    the comic key) contains the query, as (title, collection_key, comic_key),
    in catalog order. -/
def searchScan (data : Catalog) (query : Str) : List (Str × Str × Str) :=
  data.flatMap (fun p => p.2.comics.flatMap (fun q =>
    if containsSub query (lowerStr (q.2.title.getD q.1))
    then [(q.2.title.getD q.1, p.1, q.1)] else []))

/-- `query = message.text.lower().strip()`; empty → "no query" notice;
    otherwise scan every collection and every comic; hits are sorted by
    title ascending; no hit → "not found" notice. -/
def process_search_query (file : Option Catalog) (text : Str) : SearchOutcome :=
  let query := pyStrip (lowerStr text)
  if query = [] then SearchOutcome.noQuery
  else
    let hits := searchScan (file.getD []) query
    if hits = [] then SearchOutcome.notFound
    else SearchOutcome.found (pySorted (fun a b => strLe a.1 b.1) hits)

/- ===================================================================
   Subscriber toggle (bot.py toggle_notification_user lines 205-216).
   =================================================================== -/

/-- Remove the id if present (`list.remove`: first occurrence) else append;
    the updated list is what is saved back to users.json; returns True iff
    the user is now subscribed. -/
def toggle_notification_user (users : List Int) (uid : Int) : List Int × Bool :=
  if uid ∈ users then (users.erase uid, false) else (users ++ [uid], true)

/- ===================================================================
   Publication delivery (bot.py read_chapter_handler lines 651-754).
   =================================================================== -/

/-- The outcome of the single telegraph.create_page attempt:
    `disabled` — `dp.workflow_data["telegraph"]` is None (env switch off,
    library missing, or init failure); `ok u` — the call returned and
    `response.get("url")` was `u`; `err` — the call raised. -/
inductive PubCall where
  | disabled : PubCall
  | ok : Option Str → PubCall
  | err : PubCall
deriving DecidableEq, Repr

/-- What the user observably receives from the delivery part of
    read_chapter_handler. -/
structure ReadDelivery where
  /-- number of telegraph.create_page calls made -/
  attempts : Nat
  /-- the "Ссылки для этой главы не найдены" alert was shown -/
  noContentAlert : Bool
  /-- bodies of the plain-text messages that carry the raw URI list -/
  linkMessages : List Str
  /-- a back-to-chapter-list button is offered -/
  backToChapters : Bool
  /-- link to the created Telegra.ph page, when publication succeeded -/
  pageUrl : Option Str
deriving DecidableEq, Repr

/-- `"\n".join(links_list)`. -/
def joinLinks (links : List Str) : Str := List.intercalate ['\n'] links

/-- f-string header of the fallback message in the exception branch:
    `f"Прямые ссылки ({n} шт.):\n"`. -/
def fallbackHeader (n : Nat) : Str :=
  ("Прямые ссылки (").data ++ (toString n).data ++ (" шт.):\n").data

/-- Delivery: empty link list → alert only, publisher never called; with
    telegraph available exactly one create_page call is made; a returned
    url is rendered with a back button; a missing url falls through to the
    direct-links message; an exception triggers the fallback text message
    with the full joined list; with telegraph disabled the joined list is
    sent directly.  In every non-alert branch the markup carries a
    back-to-chapters button; the joined list always goes out as one single
    message (the source never chunks it). -/
def publish_chapter (links : List Str) (pub : PubCall) : ReadDelivery :=
  if links = [] then ⟨0, true, [], false, none⟩
  else
    match pub with
    | PubCall.disabled => ⟨0, false, [joinLinks links], true, none⟩
    | PubCall.ok (some url) => ⟨1, false, [], true, some url⟩
    | PubCall.ok none => ⟨1, false, [joinLinks links], true, none⟩
    | PubCall.err => ⟨1, false, [fallbackHeader links.length ++ joinLinks links], true, none⟩

/- ===================================================================
   Token codec (bot.py lines 71-83: MenuCallback prefix "menu",
   CollectionCallback prefix "coll", ComicCallback prefix "comic",
   over aiogram CallbackData pack/unpack with separator "|").
   =================================================================== -/

/-- The three navigation token shapes declared in bot.py. -/
inductive Token where
  | menu : Str → Token
  | coll : Str → Str → Token
  | comic : Str → Str → Str → Int → Token
deriving DecidableEq, Repr

/-- aiogram CallbackData separator. -/
def SEP : Char := '|'

/-- Digits of a natural number, most significant first (fuel-based so the
    definition is structurally recursive and evaluates in the kernel;
    fuel `n + 1` always suffices since `n / 10 < n` for `n > 0`). -/
def natDigitsAux : Nat → Nat → Str → Str
  | 0, _, acc => acc   -- fuel exhausted: unreachable for fuel > n
  | fuel + 1, n, acc =>
    if n < 10 then Char.ofNat (48 + n) :: acc
    else natDigitsAux fuel (n / 10) (Char.ofNat (48 + n % 10) :: acc)

/-- Decimal rendering of a natural number. -/
def natToDigits (n : Nat) : Str := natDigitsAux (n + 1) n []

/-- Python `str()` of an int. -/
def intToStr (i : Int) : Str :=
  if i < 0 then '-' :: natToDigits i.natAbs else natToDigits i.toNat

/-- The int validation pydantic applies to a string field value: an optional
    sign followed by decimal digits (leading zeros accepted, so "01" parses
    to 1). -/
def parseIntStr : Str → Option Int
  | [] => none
  | c :: ds =>
    if c = '-' then
      (if ds ≠ [] ∧ ds.all Char.isDigit
       then some (-(digitsToNat ds : Int)) else none)
    else if c = '+' then
      (if ds ≠ [] ∧ ds.all Char.isDigit
       then some ((digitsToNat ds : Int)) else none)
    else if (c :: ds).all Char.isDigit
    then some ((digitsToNat (c :: ds) : Int))
    else none

/-- Python `s.split("|")` (keeps empty pieces). -/
def splitSep : Str → List Str
  | [] => [[]]
  | c :: rest =>
    match splitSep rest with
    | [] => [[]]   -- unreachable: the result is always non-empty
    | p :: ps => if c = SEP then [] :: p :: ps else (c :: p) :: ps

/-- UTF-8 byte size of a string (Telegram callback payloads are limited to
    64 bytes and aiogram's pack enforces this). -/
def utf8Len (s : Str) : Nat := (s.map Char.utf8Size).sum

/-- Python `"|".join(pieces)`. -/
def joinSep : List Str → Str
  | [] => []
  | [f] => f
  | f :: fs => f ++ SEP :: joinSep fs

/-- aiogram `pack`: join prefix and the rendered field values with "|";
    raises (here: `none`) when a value contains the separator or the packed
    string exceeds 64 bytes. -/
def packFields (fields : List Str) : Option Str :=
  if (∀ f ∈ fields, SEP ∉ f) ∧ utf8Len (joinSep fields) ≤ 64
  then some (joinSep fields) else none

/-- `pack` of each callback class: prefix, then the field values in
    declaration order (ComicCallback: collection_key, comic_key, action,
    page). -/
def encode : Token → Option Str
  | Token.menu a => packFields [("menu").data, a]
  | Token.coll ck a => packFields [("coll").data, ck, a]
  | Token.comic ck ik a p => packFields [("comic").data, ck, ik, a, intToStr p]

/-- The dispatcher's decode: try each callback class's `unpack` — split on
    "|", require the class's prefix and exact field count, validate the
    page field as an int. -/
def decode (s : Str) : Option Token :=
  match splitSep s with
  | [p, a] => if p = ("menu").data then some (Token.menu a) else none
  | [p, ck, a] => if p = ("coll").data then some (Token.coll ck a) else none
  | [p, ck, ik, a, pg] =>
    if p = ("comic").data
    then (parseIntStr pg).map (fun n => Token.comic ck ik a n)
    else none
  | _ => none

/-- The page piece of a token string is canonically rendered: re-printing
    the parsed int reproduces it (rules out "01", "+1" and similar). -/
def canonPage (s : Str) : Bool :=
  match splitSep s with
  | [_, _, _, _, pg] =>
    (match parseIntStr pg with
     | some n => decide (intToStr n = pg)
     | none => true)
  | _ => true

/-- The round-trip property exactly as the specification states it: decode
    after encode is the identity on every constructible token, and encode
    after decode is the identity on every accepted string. -/
def tokenRoundTripClaim : Prop :=
  (∀ t : Token, (encode t).bind decode = some t) ∧
  (∀ (s : Str) (t : Token), decode s = some t → encode t = some s)

/- ===================================================================
   restructure_links.py (lines 31-75).
   =================================================================== -/

/-- chapter → ordered URI list of one comic. -/
abbrev ChapLinks := List (Str × List Str)

/-- the old, flat links.json: comic → chapters. -/
abbrev FlatLinks := List (Str × ChapLinks)

/-- the rebuilt links.json: collection → comic → chapters. -/
abbrev NestedLinks := List (Str × FlatLinks)

/-- Python `dict.pop(k)`: remove the binding of `k` (the first one, and in a
    real dict the only one). -/
def removeKey (k : Str) : FlatLinks → FlatLinks
  | [] => []
  | (k', v) :: rest => if k' = k then rest else (k', v) :: removeKey k rest

/-- Inner loop over one collection's comic keys: each key still present in
    the remaining old links is popped from them and appended to this
    collection's new dict. -/
def moveComics : List Str → FlatLinks → FlatLinks × FlatLinks
  | [], old => ([], old)
  | ik :: rest, old =>
    match lookupK ik old with
    | some v =>
      let r := moveComics rest (removeKey ik old)
      ((ik, v) :: r.1, r.2)
    | none => moveComics rest old

/-- One collection entry of data.json as restructure_links.py sees it:
    `none` models a value that is not a dict or has no "comics" key (such
    entries are skipped), `some keys` the collection's comic keys. -/
abbrev RCatalog := List (Str × Option (List Str))

/-- The outer loop: thread the shrinking old-links dict through the
    collections, building the nested document; returns the leftover
    unmatched comics as second component. -/
def restructureGo : RCatalog → FlatLinks → NestedLinks × FlatLinks
  | [], old => ([], old)
  | (_, none) :: rest, old => restructureGo rest old
  | (ck, some comicKeys) :: rest, old =>
    let m := moveComics comicKeys old
    let r := restructureGo rest m.2
    ((ck, m.1) :: r.1, r.2)

/-- restructure_links.py `restructure_links`: abort (write nothing) when
    either document failed to load or is empty (`if not data or not
    old_links`), else rebuild links.json nested under collections. -/
def restructure_links (data : RCatalog) (old : FlatLinks) : Option NestedLinks :=
  if data = [] ∨ old = [] then none else some (restructureGo data old).1

/-- The first collection, in data.json iteration order and skipping invalid
    entries, whose comics contain the key `k`. -/
def firstCollectionOf : RCatalog → Str → Option Str
  | [], _ => none
  | (_, none) :: rest, k => firstCollectionOf rest k
  | (ck, some keys) :: rest, k =>
    if k ∈ keys then some ck else firstCollectionOf rest k

/- ===================================================================
   Lemmas: lexicographic orders.
   =================================================================== -/

theorem lexLt_irrefl [DecidableEq κ] (eLt : κ → κ → Bool) :
    ∀ l : List κ, lexLt eLt l l = false := by
  intro l
  induction l with
  | nil => rfl
  | cons a t ih => simp [lexLt, ih]

theorem lexLt_trichotomy [DecidableEq κ] (eLt : κ → κ → Bool)
    (htri : ∀ a b : κ, eLt a b = true ∨ a = b ∨ eLt b a = true) :
    ∀ x y : List κ, lexLt eLt x y = true ∨ x = y ∨ lexLt eLt y x = true := by
  intro x
  induction x with
  | nil =>
    intro y
    cases y with
    | nil => right; left; rfl
    | cons b u => left; rfl
  | cons a t ih =>
    intro y
    cases y with
    | nil => right; right; rfl
    | cons b u =>
      by_cases hab : a = b
      · subst hab
        rcases ih u with h | h | h
        · left; simp [lexLt, h]
        · right; left; rw [h]
        · right; right; simp [lexLt, h]
      · rcases htri a b with h | h | h
        · left; simp [lexLt, hab, h]
        · exact absurd h hab
        · right; right
          have hba : ¬ b = a := fun hh => hab hh.symm
          simp [lexLt, hba, h]

theorem lexLt_trans [DecidableEq κ] (eLt : κ → κ → Bool)
    (hirr : ∀ a : κ, eLt a a = false)
    (htr : ∀ a b c : κ, eLt a b = true → eLt b c = true → eLt a c = true) :
    ∀ x y z : List κ, lexLt eLt x y = true → lexLt eLt y z = true →
      lexLt eLt x z = true := by
  have hne : ∀ a b : κ, eLt a b = true → ¬ a = b := by
    intro a b hab heq
    subst heq
    rw [hirr a] at hab
    exact Bool.noConfusion hab
  intro x
  induction x with
  | nil =>
    intro y z h1 h2
    cases y with
    | nil => exact absurd h1 (by simp [lexLt])
    | cons b u =>
      cases z with
      | nil => exact absurd h2 (by simp [lexLt])
      | cons c v => rfl
  | cons a t ih =>
    intro y z h1 h2
    cases y with
    | nil => exact absurd h1 (by simp [lexLt])
    | cons b u =>
      cases z with
      | nil => exact absurd h2 (by simp [lexLt])
      | cons c v =>
        by_cases hab : a = b
        · subst hab
          by_cases hbc : a = c
          · subst hbc
            simp only [lexLt, if_pos rfl] at h1 h2 ⊢
            exact ih u v h1 h2
          · simp only [lexLt, if_pos rfl] at h1
            simp only [lexLt, if_neg hbc] at h2 ⊢
            exact h2
        · simp only [lexLt, if_neg hab] at h1
          by_cases hbc : b = c
          · subst hbc
            simp only [lexLt, if_neg hab]
            exact h1
          · simp only [lexLt, if_neg hbc] at h2
            have hac : eLt a c = true := htr a b c h1 h2
            simp only [lexLt, if_neg (hne a c hac)]
            exact hac

theorem lexLt_asymm [DecidableEq κ] (eLt : κ → κ → Bool)
    (hirr : ∀ a : κ, eLt a a = false)
    (htr : ∀ a b c : κ, eLt a b = true → eLt b c = true → eLt a c = true)
    (x y : List κ) (h : lexLt eLt x y = true) : lexLt eLt y x = false := by
  by_contra hc
  have hyx : lexLt eLt y x = true := by
    cases hxy : lexLt eLt y x with
    | false => exact absurd hxy hc
    | true => rfl
  have : lexLt eLt x x = true := lexLt_trans eLt hirr htr x y x h hyx
  rw [lexLt_irrefl eLt x] at this
  exact Bool.noConfusion this

/-- "May come before": the total preorder used by a stable ascending sort. -/
theorem lexLe_total [DecidableEq κ] (eLt : κ → κ → Bool)
    (hirr : ∀ a : κ, eLt a a = false)
    (htr : ∀ a b c : κ, eLt a b = true → eLt b c = true → eLt a c = true)
    (x y : List κ) : (!(lexLt eLt y x)) || (!(lexLt eLt x y)) := by
  cases hxy : lexLt eLt x y with
  | false => simp
  | true => simp [lexLt_asymm eLt hirr htr x y hxy]

theorem lexLe_trans [DecidableEq κ] (eLt : κ → κ → Bool)
    (htri : ∀ a b : κ, eLt a b = true ∨ a = b ∨ eLt b a = true)
    (hirr : ∀ a : κ, eLt a a = false)
    (htr : ∀ a b c : κ, eLt a b = true → eLt b c = true → eLt a c = true)
    (x y z : List κ) (h1 : (!(lexLt eLt y x)) = true)
    (h2 : (!(lexLt eLt z y)) = true) : (!(lexLt eLt z x)) = true := by
  simp only [Bool.not_eq_true'] at h1 h2 ⊢
  by_contra hc
  have hzx : lexLt eLt z x = true := by
    cases hv : lexLt eLt z x with
    | false => exact absurd hv hc
    | true => rfl
  rcases lexLt_trichotomy eLt htri z y with h | h | h
  · rw [h] at h2; exact Bool.noConfusion h2
  · subst h
    rw [hzx] at h1; exact Bool.noConfusion h1
  · have : lexLt eLt y x = true := lexLt_trans eLt hirr htr y z x h hzx
    rw [this] at h1; exact Bool.noConfusion h1

/- Element-level properties for characters (code-point order). -/

theorem chLt_irrefl (a : Char) : chLt a a = false := by
  simp [chLt]

theorem chLt_trichotomy (a b : Char) :
    chLt a b = true ∨ a = b ∨ chLt b a = true := by
  rcases lt_trichotomy a b with h | h | h
  · left; simpa [chLt] using h
  · right; left; exact h
  · right; right; simpa [chLt] using h

theorem chLt_trans (a b c : Char) (h1 : chLt a b = true) (h2 : chLt b c = true) :
    chLt a c = true := by
  simp only [chLt, decide_eq_true_eq] at h1 h2 ⊢
  exact lt_trans h1 h2

/- Element-level properties for natural-sort key elements. -/

theorem nskeyLt_irrefl (a : NSKey) : nskeyLt a a = false := by
  cases a with
  | strK s => simpa [nskeyLt, strLt] using lexLt_irrefl chLt s
  | numK n => simp [nskeyLt]

theorem nskeyLt_trichotomy (a b : NSKey) :
    nskeyLt a b = true ∨ a = b ∨ nskeyLt b a = true := by
  cases a with
  | strK s =>
    cases b with
    | strK t =>
      rcases lexLt_trichotomy chLt chLt_trichotomy s t with h | h | h
      · left; simpa [nskeyLt, strLt] using h
      · right; left; rw [h]
      · right; right; simpa [nskeyLt, strLt] using h
    | numK n => right; right; simp [nskeyLt]
  | numK m =>
    cases b with
    | strK t => left; simp [nskeyLt]
    | numK n =>
      rcases Nat.lt_trichotomy m n with h | h | h
      · left; simpa [nskeyLt] using h
      · right; left; rw [h]
      · right; right; simpa [nskeyLt] using h

theorem nskeyLt_trans (a b c : NSKey) (h1 : nskeyLt a b = true)
    (h2 : nskeyLt b c = true) : nskeyLt a c = true := by
  cases a with
  | strK s =>
    cases b with
    | strK t =>
      cases c with
      | strK u =>
        simp only [nskeyLt, strLt] at h1 h2 ⊢
        exact lexLt_trans chLt chLt_irrefl chLt_trans s t u h1 h2
      | numK n => exact absurd h2 (by simp [nskeyLt])
    | numK n => exact absurd h1 (by simp [nskeyLt])
  | numK m =>
    cases c with
    | strK u => simp [nskeyLt]
    | numK p =>
      cases b with
      | strK t => exact absurd h2 (by simp [nskeyLt])
      | numK n =>
        simp only [nskeyLt, decide_eq_true_eq] at h1 h2 ⊢
        exact Nat.lt_trans h1 h2

/- The derived facts about keyLe and strLe used by the sorting proofs. -/

theorem keyLe_total (x y : List NSKey) : keyLe x y || keyLe y x := by
  have := lexLe_total nskeyLt nskeyLt_irrefl nskeyLt_trans y x
  simpa [keyLe, keyLt, Bool.or_comm] using this

theorem keyLe_trans (x y z : List NSKey) (h1 : keyLe x y = true)
    (h2 : keyLe y z = true) : keyLe x z = true := by
  have := lexLe_trans nskeyLt nskeyLt_trichotomy nskeyLt_irrefl nskeyLt_trans
    x y z
  simp only [keyLe, keyLt] at h1 h2 ⊢
  exact this h1 h2

theorem strLe_total (x y : Str) : strLe x y || strLe y x := by
  have := lexLe_total chLt chLt_irrefl chLt_trans y x
  simpa [strLe, strLt, Bool.or_comm] using this

theorem strLe_trans (x y z : Str) (h1 : strLe x y = true)
    (h2 : strLe y z = true) : strLe x z = true := by
  have := lexLe_trans chLt chLt_trichotomy chLt_irrefl chLt_trans x y z
  simp only [strLe, strLt] at h1 h2 ⊢
  exact this h1 h2

/- ===================================================================
   Lemmas: the stable sort.
   =================================================================== -/

theorem insertLe_perm (le : α → α → Bool) (a : α) (l : List α) :
    (insertLe le a l).Perm (a :: l) := by
  induction l with
  | nil => simp [insertLe]
  | cons b t ih =>
    simp only [insertLe]
    by_cases h : le a b
    · rw [if_pos h]
    · rw [if_neg h]
      exact (ih.cons b).trans (List.Perm.swap a b t)

theorem pySorted_perm (le : α → α → Bool) (l : List α) :
    (pySorted le l).Perm l := by
  induction l with
  | nil => simp [pySorted]
  | cons x xs ih =>
    simp only [pySorted]
    exact (insertLe_perm le x (pySorted le xs)).trans (ih.cons x)

theorem mem_pySorted (le : α → α → Bool) (l : List α) (x : α) :
    x ∈ pySorted le l ↔ x ∈ l :=
  (pySorted_perm le l).mem_iff

theorem insertLe_pairwise (le : α → α → Bool)
    (total : ∀ a b, le a b || le b a)
    (htr : ∀ a b c, le a b = true → le b c = true → le a c = true)
    (a : α) (l : List α) (h : l.Pairwise (fun x y => le x y = true)) :
    (insertLe le a l).Pairwise (fun x y => le x y = true) := by
  induction l with
  | nil => simp [insertLe]
  | cons b t ih =>
    rcases List.pairwise_cons.mp h with ⟨hb, ht⟩
    simp only [insertLe]
    by_cases hab : le a b
    · rw [if_pos hab]
      refine List.pairwise_cons.mpr ⟨?_, h⟩
      intro y hy
      rcases List.mem_cons.mp hy with hy | hy
      · subst hy; exact hab
      · exact htr a b y hab (hb y hy)
    · rw [if_neg hab]
      refine List.pairwise_cons.mpr ⟨?_, ih ht⟩
      intro y hy
      have hba : le b a = true := by
        have := total a b
        cases hv : le a b with
        | true => exact absurd hv hab
        | false => rw [hv] at this; simpa using this
      rcases List.mem_cons.mp ((insertLe_perm le a t).mem_iff.mp hy) with hy | hy
      · subst hy; exact hba
      · exact hb y hy

theorem pySorted_pairwise (le : α → α → Bool)
    (total : ∀ a b, le a b || le b a)
    (htr : ∀ a b c, le a b = true → le b c = true → le a c = true)
    (l : List α) : (pySorted le l).Pairwise (fun x y => le x y = true) := by
  induction l with
  | nil => simp [pySorted]
  | cons x xs ih =>
    simp only [pySorted]
    exact insertLe_pairwise le total htr x (pySorted le xs) ih

/-- In a sorted non-empty list the head is below every member. -/
theorem pairwise_headD_le (le : α → α → Bool)
    (total : ∀ a b, le a b || le b a) (d : α) {s : List α}
    (hs : s.Pairwise (fun x y => le x y = true)) (x : α) (hx : x ∈ s) :
    le (s.headD d) x = true := by
  cases s with
  | nil => exact absurd hx (List.not_mem_nil x)
  | cons a t =>
    rcases List.pairwise_cons.mp hs with ⟨ha, _⟩
    rcases List.mem_cons.mp hx with hx | hx
    · subst hx
      have := total x x
      simpa using this
    · exact ha x hx

/- ===================================================================
   Lemmas: the digit-run split.
   =================================================================== -/

/-- `pySplitDigits` is a lossless decomposition into alternating runs:
    its pieces concatenate back to the input, the pieces alternate digit-free
    pieces with non-empty all-digit runs (starting with a digit-free piece),
    and the result is never empty. -/
theorem pySplitDigits_spec (cs : Str) :
    (pySplitDigits cs).flatten = cs ∧ altRuns false (pySplitDigits cs) = true ∧
    pySplitDigits cs ≠ [] := by
  induction cs with
  | nil => exact ⟨rfl, rfl, by simp [pySplitDigits]⟩
  | cons c cs ih =>
    rcases ih with ⟨hflat, halt, hne⟩
    rcases hps : pySplitDigits cs with _ | ⟨p, ps⟩
    · exact absurd hps hne
    · rw [hps] at hflat halt
      by_cases hc : c.isDigit
      · rcases p with _ | ⟨x, xs⟩
        · rcases ps with _ | ⟨d, ps'⟩
          · -- string was empty: output ["", [c], ""]
            simp only [List.flatten, List.flatten_cons, List.nil_append,
              List.flatten_nil, List.append_nil] at hflat
            subst hflat
            refine ⟨?_, ?_, ?_⟩
            · simp [pySplitDigits, hps, hc]
            · simp [pySplitDigits, hps, hc, altRuns]
            · simp [pySplitDigits, hps, hc]
          · -- c extends the first digit run
            simp only [altRuns, List.all_nil, Bool.true_and] at halt
            have hd : ((!d.isEmpty) && d.all Char.isDigit) = true ∧
                altRuns false ps' = true := by
              cases hv : ((!d.isEmpty) && d.all Char.isDigit) with
              | false => rw [hv] at halt; simp at halt
              | true => rw [hv] at halt; simp at halt; exact ⟨rfl, halt⟩
            refine ⟨?_, ?_, ?_⟩
            · simp only [pySplitDigits, hps, hc, Bool.not_true]
              simp only [List.flatten_cons, List.nil_append] at hflat ⊢
              simp [← hflat]
            · simp only [pySplitDigits, hps, hc, Bool.not_true]
              simp only [altRuns, List.all_nil, Bool.true_and]
              have hd1 := hd.1
              simp only [Bool.and_eq_true, Bool.not_eq_true'] at hd1
              simp [altRuns, hd1.2, hc, hd.2]
            · simp [pySplitDigits, hps, hc]
        · -- c opens a new digit run before the non-empty piece p
          refine ⟨?_, ?_, ?_⟩
          · simp only [pySplitDigits, hps, hc, Bool.not_true]
            simp only [List.flatten_cons] at hflat ⊢
            simp [← hflat]
          · simp only [pySplitDigits, hps, hc, Bool.not_true]
            simp only [altRuns, List.all_nil, Bool.true_and, List.all_cons,
              List.isEmpty_cons] at halt ⊢
            simp [altRuns, hc, halt]
          · simp [pySplitDigits, hps, hc]
      · -- c extends the leading non-digit piece
        have hcb : (!c.isDigit) = true := by simp [hc]
        refine ⟨?_, ?_, ?_⟩
        · simp only [pySplitDigits, hps, hcb, if_pos]
          simp only [List.flatten_cons] at hflat ⊢
          simp [← hflat]
        · simp only [pySplitDigits, hps, hcb, if_pos]
          simp only [altRuns, List.all_cons] at halt ⊢
          simp only [Bool.and_eq_true] at halt ⊢
          exact ⟨⟨hcb, halt.1⟩, halt.2⟩
        · simp [pySplitDigits, hps, hcb]

/- ===================================================================
   C3
   =================================================================== -/

/-- C3: `natural_sort_key` splits every string into alternating non-digit /
    digit runs — the runs concatenate back to the string, digit runs are
    non-empty and become integers (`numK`), the other runs are lower-cased
    text (case-insensitive comparison) — and sorting strings by this key
    orders ["chapter_2", "chapter_10", "chapter_1"] as
    ["chapter_1", "chapter_2", "chapter_10"], with "chapter_10" after
    "chapter_2". -/
theorem C3_natural_sort_key :
    (∀ cs : Str, (pySplitDigits cs).flatten = cs ∧
      altRuns false (pySplitDigits cs) = true) ∧
    natural_sort_key (("chapter_10").data) =
      [NSKey.strK (("chapter_").data), NSKey.numK 10, NSKey.strK []] ∧
    natural_sort_key (("Chapter_10").data) = natural_sort_key (("chapter_10").data) ∧
    sortByNatKey [("chapter_2").data, ("chapter_10").data, ("chapter_1").data] =
      [("chapter_1").data, ("chapter_2").data, ("chapter_10").data] :=
  ⟨fun cs => ⟨(pySplitDigits_spec cs).1, (pySplitDigits_spec cs).2.1⟩,
   by decide, by decide, by decide⟩

/- ===================================================================
   C2
   =================================================================== -/

/-- C2: for every key list, page size > 0 and 1-based page, `paginate`
    returns exactly the zero-based window [(page-1)*ps, page*ps) of the list
    (characterised element-wise, clamped at the end of the list) together
    with total_pages = ceil(len / ps) (characterised by the standard ceiling
    inequalities); and the navigation buttons the markup builders emit from a
    valid page only carry pages inside [1, total_pages] — the navigator
    validates the page before any slicing happens on a click. -/
theorem C2_paginate {α : Type} (keys : List α) (ps page : Nat)
    (hps : 0 < ps) (hpage : 1 ≤ page) :
    ((paginate keys ps page).1.length = min ps (keys.length - (page - 1) * ps)) ∧
    (∀ i : Nat, (paginate keys ps page).1[i]? =
        if i < ps then keys[(page - 1) * ps + i]? else none) ∧
    (keys.length = 0 → (paginate keys ps page).2 = 0) ∧
    (0 < keys.length →
      ps * ((paginate keys ps page).2 - 1) < keys.length ∧
      keys.length ≤ ps * (paginate keys ps page).2) ∧
    (page ≤ (paginate keys ps page).2 →
      ∀ q ∈ navPages page (paginate keys ps page).2,
        1 ≤ q ∧ q ≤ (paginate keys ps page).2) := by
  refine ⟨?_, ?_, ?_, ?_, ?_⟩
  · simp [paginate, List.length_take, List.length_drop]
  · intro i
    simp only [paginate, List.getElem?_take, List.getElem?_drop]
  · intro h0
    simp only [paginate, h0, Nat.zero_add]
    exact Nat.div_eq_of_lt (by omega)
  · intro hlen
    have hlen1 : keys.length + ps - 1 = (keys.length - 1) + ps := by omega
    have htp : (keys.length + ps - 1) / ps = (keys.length - 1) / ps + 1 := by
      rw [hlen1]; exact Nat.add_div_right _ hps
    have hdm := Nat.div_add_mod (keys.length - 1) ps
    have hr : (keys.length - 1) % ps < ps := Nat.mod_lt _ hps
    have hmul : ps * ((keys.length - 1) / ps + 1) =
        ps * ((keys.length - 1) / ps) + ps := Nat.mul_succ ps _
    simp only [paginate, htp, Nat.add_sub_cancel]
    omega
  · intro hpt q hq
    simp only [navPages] at hq
    by_cases h1 : 1 < (paginate keys ps page).2
    · rw [if_pos h1] at hq
      rcases List.mem_append.mp hq with hq | hq
      · by_cases h2 : 1 < page
        · rw [if_pos h2] at hq
          simp only [List.mem_singleton] at hq
          omega
        · rw [if_neg h2] at hq
          exact absurd hq (List.not_mem_nil q)
      · by_cases h3 : page < (paginate keys ps page).2
        · rw [if_pos h3] at hq
          simp only [List.mem_singleton] at hq
          omega
        · rw [if_neg h3] at hq
          exact absurd hq (List.not_mem_nil q)
    · rw [if_neg h1] at hq
      exact absurd hq (List.not_mem_nil q)

/-- C2 witness: 20 keys, page size 5, page 4 — the window is keys[15:20]
    and total_pages is 4; page 5 is never offered from page 4 of 4, and the
    navigation from a valid page stays in [1, 4]. -/
theorem C2_paginate_witness :
    (paginate (List.range 20) 5 4).1 = [15, 16, 17, 18, 19] ∧
    (paginate (List.range 20) 5 4).2 = 4 ∧
    (paginate (List.range 20) 5 4).1.length =
      min 5 ((List.range 20).length - 3 * 5) ∧
    20 ≤ 5 * (paginate (List.range 20) 5 4).2 ∧
    5 * ((paginate (List.range 20) 5 4).2 - 1) < 20 ∧
    navPages 4 (paginate (List.range 20) 5 4).2 = [3] ∧
    (1 ≤ 3 ∧ 3 ≤ (paginate (List.range 20) 5 4).2) := by
  have h := C2_paginate (List.range 20) 5 4 (by decide) (by decide)
  have hd := h.2.2.2.1 (by simp)
  refine ⟨by decide, by decide, ?_, ?_, ?_, by decide, ?_⟩
  · simpa using h.1
  · simpa using hd.2
  · simpa using hd.1
  · exact h.2.2.2.2 (by decide) 3 (by decide)

/- ===================================================================
   C1
   =================================================================== -/

/-- `getD 0` is the head with default. -/
theorem getD_zero_eq_headD {α : Type _} (l : List α) (d : α) :
    l.getD 0 d = l.headD d := by
  cases l <;> rfl

/-- C1: the read token's `page` is resolved as a 1-based absolute ordinal
    into the naturally sorted chapter-key list — outside [1, len] the
    handler answers the invalid-chapter alert and performs no read;
    inside, the chapter at position page-1 of the sorted list is selected
    and its ordered page-URI list is handed on; the sorted list is a
    permutation of the stored chapter keys; and at page = 1 the selected
    key is naturally-minimal among all stored chapter keys, whatever their
    storage order. -/
theorem C1_read_chapter (chapters : List (Str × Str)) (links : Option LinksFile)
    (ck ik : Str) (page : Int) :
    (page < 1 ∨ ((chapterKeysSorted chapters).length : Int) < page →
      read_chapter chapters links ck ik page = ReadResolution.invalidChapter) ∧
    (1 ≤ page → page ≤ ((chapterKeysSorted chapters).length : Int) →
      read_chapter chapters links ck ik page =
        ReadResolution.resolved
          ((chapterKeysSorted chapters).getD (page - 1).toNat [])
          (get_links_list links ck ik
            ((chapterKeysSorted chapters).getD (page - 1).toNat []))) ∧
    ((chapterKeysSorted chapters).Perm (chapters.map Prod.fst)) ∧
    (page = 1 → ∀ k ∈ chapters.map Prod.fst,
      keyLe (natural_sort_key ((chapterKeysSorted chapters).getD 0 []))
        (natural_sort_key k) = true) := by
  refine ⟨?_, ?_, ?_, ?_⟩
  · intro h
    simp only [read_chapter]
    rw [if_pos (by omega)]
  · intro h1 h2
    simp only [read_chapter]
    rw [if_neg (by omega)]
  · exact pySorted_perm _ _
  · intro _ k hk
    have htotal : ∀ a b : Str,
        keyLe (natural_sort_key a) (natural_sort_key b) ||
          keyLe (natural_sort_key b) (natural_sort_key a) := fun a b =>
      keyLe_total (natural_sort_key a) (natural_sort_key b)
    have htr : ∀ a b c : Str,
        keyLe (natural_sort_key a) (natural_sort_key b) = true →
        keyLe (natural_sort_key b) (natural_sort_key c) = true →
        keyLe (natural_sort_key a) (natural_sort_key c) = true := fun a b c =>
      keyLe_trans (natural_sort_key a) (natural_sort_key b) (natural_sort_key c)
    have hpw := pySorted_pairwise
      (fun a b => keyLe (natural_sort_key a) (natural_sort_key b))
      htotal htr (chapters.map Prod.fst)
    have hmem : k ∈ chapterKeysSorted chapters :=
      (pySorted_perm _ _).mem_iff.mpr hk
    rw [getD_zero_eq_headD]
    exact pairwise_headD_le _ htotal [] hpw k hmem

/-- C1 witness: with chapter keys stored as [chapter_2, chapter_10,
    chapter_1], page 1 resolves to chapter_1 (the naturally-first key),
    pages 0 and 4 are rejected, and the page-1 key is naturally below
    chapter_10. -/
theorem C1_read_chapter_witness :
    read_chapter
        [(("chapter_2").data, ("B").data), (("chapter_10").data, ("C").data),
         (("chapter_1").data, ("A").data)]
        (some []) (("c").data) (("i").data) 1 =
      ReadResolution.resolved (("chapter_1").data) [] ∧
    read_chapter
        [(("chapter_2").data, ("B").data), (("chapter_10").data, ("C").data),
         (("chapter_1").data, ("A").data)]
        (some []) (("c").data) (("i").data) 0 = ReadResolution.invalidChapter ∧
    read_chapter
        [(("chapter_2").data, ("B").data), (("chapter_10").data, ("C").data),
         (("chapter_1").data, ("A").data)]
        (some []) (("c").data) (("i").data) 4 = ReadResolution.invalidChapter ∧
    keyLe (natural_sort_key (("chapter_1").data))
      (natural_sort_key (("chapter_10").data)) = true := by
  refine ⟨?_, ?_, ?_, ?_⟩
  · have h := (C1_read_chapter
      [(("chapter_2").data, ("B").data), (("chapter_10").data, ("C").data),
       (("chapter_1").data, ("A").data)]
      (some []) (("c").data) (("i").data) 1).2.1 (by decide) (by decide)
    exact h.trans (by decide)
  · exact (C1_read_chapter _ (some []) (("c").data) (("i").data) 0).1
      (by decide)
  · exact (C1_read_chapter
      [(("chapter_2").data, ("B").data), (("chapter_10").data, ("C").data),
       (("chapter_1").data, ("A").data)]
      (some []) (("c").data) (("i").data) 4).1 (by decide)
  · have h := (C1_read_chapter
      [(("chapter_2").data, ("B").data), (("chapter_10").data, ("C").data),
       (("chapter_1").data, ("A").data)]
      (some []) (("c").data) (("i").data) 1).2.2.2 rfl
      (("chapter_10").data) (by decide)
    have h2 : (chapterKeysSorted
        [(("chapter_2").data, ("B").data), (("chapter_10").data, ("C").data),
         (("chapter_1").data, ("A").data)]).getD 0 [] = ("chapter_1").data := by
      decide
    rw [h2] at h
    exact h

/- ===================================================================
   C4
   =================================================================== -/

/-- With no duplicate comic keys, a collection holds at most one comic per
    key. -/
theorem countP_comics_le_one (ik : Str) (comics : List (Str × ComicData))
    (h : (comics.map Prod.fst).Nodup) :
    comics.countP (fun q => decide (q.1 = ik)) ≤ 1 := by
  induction comics with
  | nil => simp
  | cons q rest ih =>
    simp only [List.map_cons, List.nodup_cons] at h
    rcases h with ⟨hq, hrest⟩
    rw [List.countP_cons]
    by_cases hqi : q.1 = ik
    · have h0 : rest.countP (fun q => decide (q.1 = ik)) = 0 := by
        rw [List.countP_eq_zero]
        intro a ha hcontra
        simp only [decide_eq_true_eq] at hcontra
        exact hq (List.mem_map.mpr ⟨a, ha, hcontra.trans hqi.symm⟩)
      simp [hqi, h0]
    · have hd0 : (decide (q.1 = ik)) = false := by simp [hqi]
      rw [hd0]
      simpa using ih hrest

/-- Collections whose key is not `ck` contribute nothing to the count of
    (ck, ik) candidates. -/
theorem countP_identifiers_zero (ck ik : Str) (l : Catalog)
    (hl : ck ∉ l.map Prod.fst) :
    (l.flatMap (fun p => p.2.comics.map
        (fun q => (p.1, q.1, q.2.title.getD q.1)))).countP
      (fun t => decide (t.1 = ck ∧ t.2.1 = ik)) = 0 := by
  rw [List.countP_eq_zero]
  intro t ht hcon
  simp only [decide_eq_true_eq] at hcon
  rcases List.mem_flatMap.mp ht with ⟨p, hpmem, hin⟩
  rcases List.mem_map.mp hin with ⟨q, _, rfl⟩
  exact hl (List.mem_map.mpr ⟨p, hpmem, hcon.1⟩)

/-- Each (collection, comic) pair occurs at most once in the flattened
    candidate list. -/
theorem identifiers_countP_le_one (data : Catalog) (ck ik : Str)
    (hck : (data.map Prod.fst).Nodup)
    (hik : ∀ p ∈ data, (p.2.comics.map Prod.fst).Nodup) :
    (get_all_comic_identifiers data).countP
      (fun t => decide (t.1 = ck ∧ t.2.1 = ik)) ≤ 1 := by
  induction data with
  | nil => simp [get_all_comic_identifiers]
  | cons p rest ih =>
    simp only [List.map_cons, List.nodup_cons] at hck
    have hrest := ih hck.2 (fun r hr => hik r (List.mem_cons_of_mem _ hr))
    simp only [get_all_comic_identifiers, List.flatMap_cons,
      List.countP_append] at hrest ⊢
    by_cases hp : p.1 = ck
    · have hrest0 := countP_identifiers_zero ck ik rest (hp ▸ hck.1)
      have hcoll : (p.2.comics.map
          (fun q => (p.1, q.1, q.2.title.getD q.1))).countP
            (fun t => decide (t.1 = ck ∧ t.2.1 = ik)) ≤ 1 := by
        rw [List.countP_map]
        have hcong : ∀ q ∈ p.2.comics,
            (((fun t : Str × Str × Str => decide (t.1 = ck ∧ t.2.1 = ik)) ∘
              (fun q => (p.1, q.1, q.2.title.getD q.1))) q = true ↔
            (fun q : Str × ComicData => decide (q.1 = ik)) q = true) := by
          intro q _
          simp [Function.comp, hp]
        rw [List.countP_congr hcong]
        exact countP_comics_le_one ik p.2.comics (hik p (List.mem_cons_self p rest))
      simp only [get_all_comic_identifiers] at hrest0
      omega
    · have hcoll0 : (p.2.comics.map
          (fun q => (p.1, q.1, q.2.title.getD q.1))).countP
            (fun t => decide (t.1 = ck ∧ t.2.1 = ik)) = 0 := by
        rw [List.countP_eq_zero]
        intro t ht hcon
        simp only [decide_eq_true_eq] at hcon
        rcases List.mem_map.mp ht with ⟨q, _, rfl⟩
        exact hp hcon.1
      omega

/-- The flattened candidate list has one entry per comic of every
    collection. -/
theorem identifiers_length (data : Catalog) :
    (get_all_comic_identifiers data).length =
      (data.map (fun p => p.2.comics.length)).sum := by
  induction data with
  | nil => simp [get_all_comic_identifiers]
  | cons p rest ih =>
    simp only [get_all_comic_identifiers, List.flatMap_cons, List.length_append,
      List.length_map, List.map_cons, List.sum_cons] at ih ⊢
    omega

/-- Membership in the flattened candidate list. -/
theorem mem_identifiers (data : Catalog) (ck ik title : Str) :
    (ck, ik, title) ∈ get_all_comic_identifiers data ↔
      ∃ cd comic, (ck, cd) ∈ data ∧ (ik, comic) ∈ cd.comics ∧
        title = comic.title.getD ik := by
  simp only [get_all_comic_identifiers, List.mem_flatMap, List.mem_map]
  constructor
  · rintro ⟨⟨pk, pcd⟩, hp, ⟨qk, qc⟩, hq, heq⟩
    simp only [Prod.mk.injEq] at heq
    rcases heq with ⟨h1, h2, h3⟩
    subst h1; subst h2; subst h3
    exact ⟨pcd, qc, hp, hq, rfl⟩
  · rintro ⟨cd, comic, hcd, hcomic, rfl⟩
    exact ⟨(ck, cd), hcd, ⟨(ik, comic), hcomic, rfl⟩⟩

/-- C4: the random pick flattens the catalog into one candidate list with
    exactly one entry per (collection, comic) pair — its length is the total
    comic count, membership is exactly catalog membership, and no pair
    occurs twice — an empty flattened list renders the empty-catalog notice,
    and otherwise the draw picks position i of the flattened list (uniform
    over indices = uniform over pairs, not a two-stage draw). -/
theorem C4_random_comic (data : Catalog) (i : Nat)
    (hck : (data.map Prod.fst).Nodup)
    (hik : ∀ p ∈ data, (p.2.comics.map Prod.fst).Nodup) :
    ((get_all_comic_identifiers data).length =
      (data.map (fun p => p.2.comics.length)).sum) ∧
    (∀ ck ik title, (ck, ik, title) ∈ get_all_comic_identifiers data ↔
      ∃ cd comic, (ck, cd) ∈ data ∧ (ik, comic) ∈ cd.comics ∧
        title = comic.title.getD ik) ∧
    (∀ ck ik, (get_all_comic_identifiers data).countP
      (fun t => decide (t.1 = ck ∧ t.2.1 = ik)) ≤ 1) ∧
    (get_all_comic_identifiers data = [] →
      random_comic data i = RandomOutcome.emptyCatalog) ∧
    (i < (get_all_comic_identifiers data).length →
      random_comic data i = RandomOutcome.picked
        ((get_all_comic_identifiers data).getD i ([], [], [])).1
        ((get_all_comic_identifiers data).getD i ([], [], [])).2.1
        ((get_all_comic_identifiers data).getD i ([], [], [])).2.2) := by
  refine ⟨identifiers_length data, mem_identifiers data, fun ck ik =>
    identifiers_countP_le_one data ck ik hck hik, ?_, ?_⟩
  · intro h
    simp [random_comic, h]
  · intro h
    have hne : get_all_comic_identifiers data ≠ [] := by
      intro hnil
      rw [hnil] at h
      simp at h
    have hmod : i % (get_all_comic_identifiers data).length = i :=
      Nat.mod_eq_of_lt h
    simp only [random_comic, if_neg hne, hmod]
    rw [List.getElem?_eq_getElem h]
    have hgd : (get_all_comic_identifiers data).getD i ([], [], []) =
        (get_all_comic_identifiers data)[i] := List.getD_eq_getElem _ _ h
    rw [hgd]

/-- C4 witness: two collections with 2 and 1 comics; the three draws hit the
    three pairs, each pair occurs at most once, and an empty catalog renders
    the empty notice. -/
theorem C4_random_comic_witness :
    random_comic
      [(("a").data, ⟨none, none,
          [(("x").data, ⟨some (("X").data), []⟩), (("y").data, ⟨none, []⟩)]⟩),
       (("b").data, ⟨none, none, [(("z").data, ⟨none, []⟩)]⟩)] 0 =
      RandomOutcome.picked (("a").data) (("x").data) (("X").data) ∧
    random_comic
      [(("a").data, ⟨none, none,
          [(("x").data, ⟨some (("X").data), []⟩), (("y").data, ⟨none, []⟩)]⟩),
       (("b").data, ⟨none, none, [(("z").data, ⟨none, []⟩)]⟩)] 2 =
      RandomOutcome.picked (("b").data) (("z").data) (("z").data) ∧
    (get_all_comic_identifiers
      [(("a").data, ⟨none, none,
          [(("x").data, ⟨some (("X").data), []⟩), (("y").data, ⟨none, []⟩)]⟩),
       (("b").data, ⟨none, none, [(("z").data, ⟨none, []⟩)]⟩)]).countP
      (fun t => decide (t.1 = ("a").data ∧ t.2.1 = ("x").data)) ≤ 1 ∧
    random_comic [] 5 = RandomOutcome.emptyCatalog := by
  refine ⟨?_, ?_, ?_, ?_⟩
  · have h := (C4_random_comic
      [(("a").data, ⟨none, none,
          [(("x").data, ⟨some (("X").data), []⟩), (("y").data, ⟨none, []⟩)]⟩),
       (("b").data, ⟨none, none, [(("z").data, ⟨none, []⟩)]⟩)] 0
      (by decide) (by decide)).2.2.2.2 (by decide)
    exact h.trans (by decide)
  · have h := (C4_random_comic
      [(("a").data, ⟨none, none,
          [(("x").data, ⟨some (("X").data), []⟩), (("y").data, ⟨none, []⟩)]⟩),
       (("b").data, ⟨none, none, [(("z").data, ⟨none, []⟩)]⟩)] 2
      (by decide) (by decide)).2.2.2.2 (by decide)
    exact h.trans (by decide)
  · exact (C4_random_comic _ 0 (by decide) (by decide)).2.2.1
      (("a").data) (("x").data)
  · exact (C4_random_comic [] 5 (by decide) (by decide)).2.2.2.1 rfl

/- ===================================================================
   C5
   =================================================================== -/

/-- Membership in the full search scan: a hit is exactly a comic of some
    collection whose lower-cased title contains the query. -/
theorem mem_searchScan (data : Catalog) (q : Str) (t ck ik : Str) :
    (t, ck, ik) ∈ searchScan data q ↔
      ∃ cd comic, (ck, cd) ∈ data ∧ (ik, comic) ∈ cd.comics ∧
        t = comic.title.getD ik ∧ containsSub q (lowerStr t) = true := by
  simp only [searchScan, List.mem_flatMap]
  constructor
  · rintro ⟨⟨pk, pcd⟩, hp, ⟨qk, qc⟩, hq, hmem⟩
    by_cases hc : containsSub q (lowerStr (qc.title.getD qk)) = true
    · rw [if_pos hc] at hmem
      simp only [List.mem_singleton, Prod.mk.injEq] at hmem
      rcases hmem with ⟨h1, h2, h3⟩
      subst h1; subst h2; subst h3
      exact ⟨pcd, qc, hp, hq, rfl, hc⟩
    · rw [if_neg hc] at hmem
      exact absurd hmem (List.not_mem_nil _)
  · rintro ⟨cd, comic, hcd, hcomic, rfl, hc⟩
    refine ⟨(ck, cd), hcd, (ik, comic), hcomic, ?_⟩
    rw [if_pos hc]
    exact List.mem_singleton.mpr rfl

/-- C5: the query is lower-cased and trimmed; whitespace-only input yields
    the "no query" outcome (no scan result is shown); otherwise every
    collection and every comic is scanned — a title is a hit exactly when
    its lower-cased form contains the query — the "not found" outcome means
    exactly that no comic matched, and any result list is the complete hit
    set sorted by title ascending. -/
theorem C5_process_search_query (file : Option Catalog) (text : Str) :
    (pyStrip (lowerStr text) = [] →
      process_search_query file text = SearchOutcome.noQuery) ∧
    (pyStrip (lowerStr text) ≠ [] →
      ((process_search_query file text = SearchOutcome.notFound ↔
        searchScan (file.getD []) (pyStrip (lowerStr text)) = []) ∧
       (∀ l, process_search_query file text = SearchOutcome.found l →
         (∀ t ck ik, (t, ck, ik) ∈ l ↔
           ∃ cd comic, (ck, cd) ∈ file.getD [] ∧ (ik, comic) ∈ cd.comics ∧
             t = comic.title.getD ik ∧
             containsSub (pyStrip (lowerStr text)) (lowerStr t) = true) ∧
         l.Pairwise (fun a b => strLe a.1 b.1 = true) ∧ l ≠ []))) := by
  constructor
  · intro h
    simp [process_search_query, h]
  · intro hq
    constructor
    · by_cases hh : searchScan (file.getD []) (pyStrip (lowerStr text)) = []
      · simp [process_search_query, if_neg hq, hh]
      · simp [process_search_query, if_neg hq, hh]
    · intro l hl
      by_cases hh : searchScan (file.getD []) (pyStrip (lowerStr text)) = []
      · simp [process_search_query, if_neg hq, hh] at hl
      · simp only [process_search_query, if_neg hq, if_neg hh] at hl
        rcases hl with hl
        injection hl with hl2
        subst hl2
        refine ⟨?_, ?_, ?_⟩
        · intro t ck ik
          rw [(pySorted_perm _ _).mem_iff]
          exact mem_searchScan _ _ t ck ik
        · exact pySorted_pairwise _
            (fun a b => strLe_total a.1 b.1)
            (fun a b c => strLe_trans a.1 b.1 c.1) _
        · intro hnil
          have := (pySorted_perm (fun a b => strLe a.1 b.1)
            (searchScan (file.getD []) (pyStrip (lowerStr text)))).length_eq
          rw [hnil] at this
          simp only [List.length_nil] at this
          exact hh (List.eq_nil_of_length_eq_zero this.symm)

/-- C5 witness: the whitespace query yields the no-query outcome; the query
    "  MAN  " (lower-cased, trimmed to "man") finds both "Batman" and
    "Spider-Man", the result is sorted by title, and "Spider-Man" is a
    member by the case-insensitive substring rule. -/
theorem C5_process_search_query_witness :
    process_search_query
      (some [(("marvel").data, ⟨some (("Marvel").data), none,
        [(("sm").data, ⟨some (("Spider-Man").data), []⟩),
         (("bat").data, ⟨some (("Batman").data), []⟩)]⟩)])
      (("   ").data) = SearchOutcome.noQuery ∧
    ((("Spider-Man").data, ("marvel").data, ("sm").data) ∈
      [((("Batman").data : Str), (("marvel").data : Str), (("bat").data : Str)),
       ((("Spider-Man").data : Str), (("marvel").data : Str), (("sm").data : Str))]) ∧
    ([((("Batman").data : Str), (("marvel").data : Str), (("bat").data : Str)),
      ((("Spider-Man").data : Str), (("marvel").data : Str), (("sm").data : Str))].Pairwise
        (fun a b => strLe a.1 b.1 = true)) := by
  refine ⟨?_, ?_, ?_⟩
  · exact (C5_process_search_query
      (some [(("marvel").data, ⟨some (("Marvel").data), none,
        [(("sm").data, ⟨some (("Spider-Man").data), []⟩),
         (("bat").data, ⟨some (("Batman").data), []⟩)]⟩)])
      (("   ").data)).1 (by decide)
  · have h := ((C5_process_search_query
      (some [(("marvel").data, ⟨some (("Marvel").data), none,
        [(("sm").data, ⟨some (("Spider-Man").data), []⟩),
         (("bat").data, ⟨some (("Batman").data), []⟩)]⟩)])
      (("  MAN  ").data)).2 (by decide)).2
      [((("Batman").data : Str), (("marvel").data : Str), (("bat").data : Str)),
       ((("Spider-Man").data : Str), (("marvel").data : Str), (("sm").data : Str))]
      (by decide)
    exact (h.1 (("Spider-Man").data) (("marvel").data) (("sm").data)).mpr
      ⟨⟨some (("Marvel").data), none,
        [(("sm").data, ⟨some (("Spider-Man").data), []⟩),
         (("bat").data, ⟨some (("Batman").data), []⟩)]⟩,
       ⟨some (("Spider-Man").data), []⟩,
       by decide, by decide, by decide, by decide⟩
  · have h := ((C5_process_search_query
      (some [(("marvel").data, ⟨some (("Marvel").data), none,
        [(("sm").data, ⟨some (("Spider-Man").data), []⟩),
         (("bat").data, ⟨some (("Batman").data), []⟩)]⟩)])
      (("  MAN  ").data)).2 (by decide)).2
      [((("Batman").data : Str), (("marvel").data : Str), (("bat").data : Str)),
       ((("Spider-Man").data : Str), (("marvel").data : Str), (("sm").data : Str))]
      (by decide)
    exact h.2.1

/- ===================================================================
   C8
   =================================================================== -/

/-- C8: on a duplicate-free subscriber list, the toggle flips exactly the
    acting user's membership, leaves every other user's membership
    unchanged, keeps the list duplicate-free, and its boolean result
    reports whether the user is now subscribed. -/
theorem C8_toggle_notification_user (users : List Int) (uid : Int)
    (h : users.Nodup) :
    ((toggle_notification_user users uid).2 = true ↔ uid ∉ users) ∧
    (uid ∈ (toggle_notification_user users uid).1 ↔ uid ∉ users) ∧
    (∀ v : Int, v ≠ uid →
      (v ∈ (toggle_notification_user users uid).1 ↔ v ∈ users)) ∧
    (toggle_notification_user users uid).1.Nodup ∧
    ((toggle_notification_user users uid).2 = true ↔
      uid ∈ (toggle_notification_user users uid).1) := by
  by_cases hm : uid ∈ users
  · simp only [toggle_notification_user, if_pos hm]
    refine ⟨by simp [hm], ?_, ?_, ?_, ?_⟩
    · simp [h.mem_erase_iff, hm]
    · intro v hv
      exact List.mem_erase_of_ne hv
    · exact h.erase uid
    · simp [h.mem_erase_iff]
  · simp only [toggle_notification_user, if_neg hm]
    refine ⟨by simp [hm], ?_, ?_, ?_, ?_⟩
    · simp [hm]
    · intro v hv
      simp [List.mem_append, hv]
    · refine List.nodup_append.mpr ⟨h, List.nodup_singleton uid, ?_⟩
      intro a ha hcontra
      rw [List.mem_singleton] at hcontra
      subst hcontra
      exact hm ha
    · simp

/-- C8 witness: toggling 5 out of [3, 5] removes exactly 5 and reports
    "now unsubscribed"; toggling 5 into [3] appends it and reports "now
    subscribed"; after removal 5 is indeed gone. -/
theorem C8_toggle_notification_user_witness :
    toggle_notification_user [3, 5] 5 = ([3], false) ∧
    toggle_notification_user [3] 5 = ([3, 5], true) ∧
    (5 ∉ (toggle_notification_user [3, 5] 5).1) ∧
    (3 ∈ (toggle_notification_user [3, 5] 5).1) := by
  have h := C8_toggle_notification_user [3, 5] 5 (by decide)
  refine ⟨by decide, by decide, ?_, ?_⟩
  · intro hin
    exact (h.2.1.mp hin) (by decide)
  · exact (h.2.2.1 3 (by decide)).mpr (by decide)

/- ===================================================================
   C9
   =================================================================== -/

/-- C9: a missing or unreadable catalog file behaves as an empty catalog in
    every query, and a missing links file — or a miss at any level of the
    (collection, comic, chapter) triple — yields an empty page list, never
    an error. -/
theorem C9_storage_misses :
    (get_all_data none = []) ∧
    (∀ ck, get_comics_data none ck = []) ∧
    (∀ ck ik, get_chapters_data none ck ik = []) ∧
    (∀ ck ik chk, get_links_list none ck ik chk = []) ∧
    (∀ (links : Option LinksFile) ck ik chk,
      lookupK ck (links.getD []) = none → get_links_list links ck ik chk = []) ∧
    (∀ (links : Option LinksFile) ck ik chk m1,
      lookupK ck (links.getD []) = some m1 → lookupK ik m1 = none →
      get_links_list links ck ik chk = []) ∧
    (∀ (links : Option LinksFile) ck ik chk m1 m2,
      lookupK ck (links.getD []) = some m1 → lookupK ik m1 = some m2 →
      lookupK chk m2 = none → get_links_list links ck ik chk = []) ∧
    (∀ (file : Option Catalog) ck, lookupK ck (get_all_data file) = none →
      get_comics_data file ck = []) ∧
    (∀ (file : Option Catalog) ck ik,
      lookupK ik (get_comics_data file ck) = none →
      get_chapters_data file ck ik = []) := by
  refine ⟨rfl, ?_, ?_, ?_, ?_, ?_, ?_, ?_, ?_⟩
  · intro ck
    simp [get_comics_data, get_all_data, lookupK]
  · intro ck ik
    simp [get_chapters_data, get_comics_data, get_all_data, lookupK]
  · intro ck ik chk
    simp [get_links_list, lookupK]
  · intro links ck ik chk hck
    simp [get_links_list, hck, lookupK]
  · intro links ck ik chk m1 hck hik
    simp [get_links_list, hck, hik, lookupK]
  · intro links ck ik chk m1 m2 hck hik hchk
    simp [get_links_list, hck, hik, hchk]
  · intro file ck hck
    simp [get_comics_data, hck]
  · intro file ck ik hik
    simp [get_chapters_data, hik]

/-- C9 witness: a concrete links file missing the requested collection,
    comic or chapter yields [], as does the absent file. -/
theorem C9_storage_misses_witness :
    get_links_list none (("c").data) (("i").data) (("ch").data) = [] ∧
    get_links_list (some [(("a").data, [])]) (("b").data) (("i").data)
      (("ch").data) = [] ∧
    get_links_list
      (some [(("a").data, [(("i").data, [(("ch1").data, [("u").data])])])])
      (("a").data) (("i").data) (("ch2").data) = [] ∧
    get_comics_data none (("a").data) = [] := by
  refine ⟨?_, ?_, ?_, ?_⟩
  · exact (C9_storage_misses).2.2.2.1 (("c").data) (("i").data) (("ch").data)
  · exact (C9_storage_misses).2.2.2.2.1 (some [(("a").data, [])])
      (("b").data) (("i").data) (("ch").data) (by decide)
  · exact (C9_storage_misses).2.2.2.2.2.2.1
      (some [(("a").data, [(("i").data, [(("ch1").data, [("u").data])])])])
      (("a").data) (("i").data) (("ch2").data)
      [(("i").data, [(("ch1").data, [("u").data])])]
      [(("ch1").data, [("u").data])] (by decide) (by decide) (by decide)
  · exact (C9_storage_misses).2.1 (("a").data)

/- ===================================================================
   C6 (corrected: the source never chunks the fallback text)
   =================================================================== -/

/-- Joining a single link is that link. -/
theorem joinLinks_singleton (x : Str) : joinLinks [x] = x := by
  simp [joinLinks, List.intercalate]

/-- C6 counterexample to the claim as stated: with one 5000-character page
    URI and a failing publisher, the handler emits exactly one raw-links
    message and its body is longer than 4096 characters (the transport's
    message-size limit), i.e. the fallback text is NOT chunked. -/
theorem C6_no_chunking_counterexample :
    (publish_chapter [List.replicate 5000 'a'] PubCall.err).linkMessages.length
      = 1 ∧
    4096 < ((publish_chapter [List.replicate 5000 'a']
      PubCall.err).linkMessages.headD []).length := by
  constructor
  · rfl
  · show 4096 < ((fallbackHeader 1 ++
      joinLinks [List.replicate 5000 'a']) : Str).length
    rw [joinLinks_singleton]
    simp only [List.length_append, List.length_replicate]
    have hh : (fallbackHeader 1).length = 23 := by decide
    omega

/-- C6 (amended): an empty page-URI list produces the "no content" alert and
    the publisher is never called; when publishing is disabled or the
    publisher call fails, the user still receives the full ordered URI list
    as plain text in a single message (the handler does not chunk oversized
    content) together with a back-to-chapter-list affordance; and the
    publisher is invoked at most once per read request — exactly once when
    there is content and telegraph is available, never otherwise. -/
theorem C6_publish_chapter (links : List Str) (pub : PubCall) :
    (links = [] → publish_chapter links pub =
      ⟨0, true, [], false, none⟩) ∧
    ((publish_chapter links pub).attempts ≤ 1) ∧
    ((publish_chapter links pub).attempts = 1 ↔
      links ≠ [] ∧ pub ≠ PubCall.disabled) ∧
    (links ≠ [] → (pub = PubCall.disabled ∨ pub = PubCall.err) →
      (publish_chapter links pub).backToChapters = true ∧
      (publish_chapter links pub).linkMessages.length = 1 ∧
      (joinLinks links) <:+
        ((publish_chapter links pub).linkMessages.headD []) ∧
      (publish_chapter links pub).pageUrl = none) ∧
    (links ≠ [] → ∀ url, pub = PubCall.ok (some url) →
      (publish_chapter links pub).pageUrl = some url ∧
      (publish_chapter links pub).backToChapters = true ∧
      (publish_chapter links pub).linkMessages = []) := by
  refine ⟨?_, ?_, ?_, ?_, ?_⟩
  · intro h
    simp [publish_chapter, h]
  · by_cases h : links = []
    · simp [publish_chapter, h]
    · cases pub with
      | disabled => simp [publish_chapter, h]
      | ok u => cases u <;> simp [publish_chapter, h]
      | err => simp [publish_chapter, h]
  · by_cases h : links = []
    · simp [publish_chapter, h]
    · cases pub with
      | disabled => simp [publish_chapter, h]
      | ok u => cases u <;> simp [publish_chapter, h]
      | err => simp [publish_chapter, h]
  · intro h hpub
    rcases hpub with rfl | rfl
    · refine ⟨by simp [publish_chapter, h], by simp [publish_chapter, h],
        ?_, by simp [publish_chapter, h]⟩
      simp only [publish_chapter, if_neg h, List.headD_cons]
      exact ⟨[], by simp⟩
    · refine ⟨by simp [publish_chapter, h], by simp [publish_chapter, h],
        ?_, by simp [publish_chapter, h]⟩
      simp only [publish_chapter, if_neg h, List.headD_cons]
      exact ⟨fallbackHeader links.length, rfl⟩
  · intro h url hpub
    subst hpub
    exact ⟨by simp [publish_chapter, h], by simp [publish_chapter, h],
      by simp [publish_chapter, h]⟩

/-- C6 witness: with two URIs and a failing publisher the user gets one
    message whose text ends with the full joined list and a back button,
    after exactly one publish attempt; with publishing disabled there is no
    attempt at all; with no URIs the alert is raised and nothing is
    published. -/
theorem C6_publish_chapter_witness :
    (publish_chapter [("u1").data, ("u2").data] PubCall.err).attempts = 1 ∧
    (publish_chapter [("u1").data, ("u2").data]
      PubCall.err).backToChapters = true ∧
    (publish_chapter [("u1").data, ("u2").data]
      PubCall.err).linkMessages.length = 1 ∧
    (("u1\nu2").data <:+ ((publish_chapter [("u1").data, ("u2").data]
      PubCall.err).linkMessages.headD [])) ∧
    (publish_chapter [("u1").data, ("u2").data] PubCall.disabled).attempts = 0 ∧
    publish_chapter [] PubCall.err = ⟨0, true, [], false, none⟩ := by
  have h := C6_publish_chapter [("u1").data, ("u2").data] PubCall.err
  have hf := h.2.2.2.1 (by decide) (Or.inr rfl)
  refine ⟨?_, hf.1, hf.2.1, ?_, ?_, ?_⟩
  · exact h.2.2.1.mpr ⟨by decide, by decide⟩
  · have hj : joinLinks [("u1").data, ("u2").data] = ("u1\nu2").data := by decide
    exact hj ▸ hf.2.2.1
  · have hd := C6_publish_chapter [("u1").data, ("u2").data] PubCall.disabled
    have : ¬((publish_chapter [("u1").data, ("u2").data]
        PubCall.disabled).attempts = 1) := by
      rw [hd.2.2.1]
      rintro ⟨-, hcon⟩
      exact hcon rfl
    omega
  · exact (C6_publish_chapter [] PubCall.err).1 rfl

/- ===================================================================
   C7: decimal rendering and separator-splitting lemmas.
   =================================================================== -/

theorem digitChar_isDigit (m : Nat) (h : m < 10) :
    (Char.ofNat (48 + m)).isDigit = true := by
  interval_cases m <;> decide

theorem digitChar_val (m : Nat) (h : m < 10) :
    digitVal (Char.ofNat (48 + m)) = m := by
  interval_cases m <;> decide

theorem natDigitsAux_all_digit :
    ∀ (fuel n : Nat) (acc : Str), n < fuel → (∀ c ∈ acc, c.isDigit = true) →
      ∀ c ∈ natDigitsAux fuel n acc, c.isDigit = true := by
  intro fuel
  induction fuel with
  | zero => intro n acc h; omega
  | succ fuel ih =>
    intro n acc h hacc c hc
    by_cases h10 : n < 10
    · simp only [natDigitsAux, if_pos h10] at hc
      rcases List.mem_cons.mp hc with rfl | hc
      · exact digitChar_isDigit n h10
      · exact hacc c hc
    · simp only [natDigitsAux, if_neg h10] at hc
      refine ih (n / 10) _ ?_ ?_ c hc
      · have := Nat.div_lt_self (by omega : 0 < n) (by omega : 1 < 10)
        omega
      · intro c' hc'
        rcases List.mem_cons.mp hc' with rfl | hc'
        · exact digitChar_isDigit _ (Nat.mod_lt _ (by omega))
        · exact hacc c' hc'

theorem natDigitsAux_ne_nil :
    ∀ (fuel n : Nat) (acc : Str), n < fuel → natDigitsAux fuel n acc ≠ [] := by
  intro fuel
  induction fuel with
  | zero => intro n acc h; omega
  | succ fuel ih =>
    intro n acc h
    by_cases h10 : n < 10
    · simp [natDigitsAux, if_pos h10]
    · simp only [natDigitsAux, if_neg h10]
      refine ih (n / 10) _ ?_
      have := Nat.div_lt_self (by omega : 0 < n) (by omega : 1 < 10)
      omega

theorem natDigitsAux_acc :
    ∀ (fuel n : Nat) (acc : Str), n < fuel →
      natDigitsAux fuel n acc = natDigitsAux fuel n [] ++ acc := by
  intro fuel
  induction fuel with
  | zero => intro n acc h; omega
  | succ fuel ih =>
    intro n acc h
    by_cases h10 : n < 10
    · simp [natDigitsAux, if_pos h10]
    · have hlt : n / 10 < fuel := by
        have := Nat.div_lt_self (by omega : 0 < n) (by omega : 1 < 10)
        omega
      simp only [natDigitsAux, if_neg h10]
      rw [ih (n / 10) _ hlt, ih (n / 10) [Char.ofNat (48 + n % 10)] hlt,
        List.append_assoc]
      rfl

theorem digitsToNat_append_digit (xs : Str) (d : Char) :
    digitsToNat (xs ++ [d]) = 10 * digitsToNat xs + digitVal d := by
  simp [digitsToNat, List.foldl_append]

theorem digitsToNat_natDigitsAux : ∀ (fuel n : Nat), n < fuel →
    digitsToNat (natDigitsAux fuel n []) = n := by
  intro fuel
  induction fuel with
  | zero => intro n h; omega
  | succ fuel ih =>
    intro n h
    by_cases h10 : n < 10
    · simp only [natDigitsAux, if_pos h10]
      simp [digitsToNat, digitChar_val n h10]
    · have hlt : n / 10 < fuel := by
        have := Nat.div_lt_self (by omega : 0 < n) (by omega : 1 < 10)
        omega
      simp only [natDigitsAux, if_neg h10]
      rw [natDigitsAux_acc fuel (n / 10) _ hlt, digitsToNat_append_digit,
        ih (n / 10) hlt, digitChar_val _ (Nat.mod_lt _ (by omega))]
      exact Nat.div_add_mod n 10

theorem natToDigits_all_digit (n : Nat) :
    ∀ c ∈ natToDigits n, c.isDigit = true :=
  natDigitsAux_all_digit (n + 1) n [] (Nat.lt_succ_self n) (by simp)

theorem natToDigits_ne_nil (n : Nat) : natToDigits n ≠ [] :=
  natDigitsAux_ne_nil (n + 1) n [] (Nat.lt_succ_self n)

theorem digitsToNat_natToDigits (n : Nat) :
    digitsToNat (natToDigits n) = n :=
  digitsToNat_natDigitsAux (n + 1) n (Nat.lt_succ_self n)

/-- Printing an int and validating it back is the identity. -/
theorem parseIntStr_intToStr (i : Int) : parseIntStr (intToStr i) = some i := by
  by_cases hneg : i < 0
  · simp only [intToStr, if_pos hneg, natToDigits]
    have hnn : natDigitsAux (i.natAbs + 1) i.natAbs [] ≠ [] :=
      natDigitsAux_ne_nil _ _ [] (Nat.lt_succ_self _)
    have hall : (natDigitsAux (i.natAbs + 1) i.natAbs []).all Char.isDigit
        = true := by
      rw [List.all_eq_true]
      exact natDigitsAux_all_digit _ _ [] (Nat.lt_succ_self _) (by simp)
    simp only [parseIntStr]
    rw [if_pos trivial, if_pos ⟨hnn, hall⟩]
    rw [digitsToNat_natDigitsAux _ _ (Nat.lt_succ_self _)]
    have habs : ((i.natAbs : Int)) = -i := by
      rcases Int.natAbs_eq i with h | h <;> omega
    rw [habs, neg_neg]
  · rcases hnd : natToDigits i.toNat with _ | ⟨c, ds⟩
    · exact absurd hnd (natToDigits_ne_nil _)
    · have hcd : c.isDigit = true :=
        natToDigits_all_digit i.toNat c (hnd ▸ List.mem_cons_self c ds)
      have hcm : c ≠ '-' := by
        intro hEq
        rw [hEq] at hcd
        exact absurd hcd (by decide)
      have hcp : c ≠ '+' := by
        intro hEq
        rw [hEq] at hcd
        exact absurd hcd (by decide)
      simp only [intToStr, if_neg hneg, hnd]
      simp only [parseIntStr, if_neg hcm, if_neg hcp]
      rw [if_pos (by
        rw [List.all_eq_true]
        intro c' hc'
        exact natToDigits_all_digit i.toNat c' (hnd ▸ hc'))]
      rw [← hnd, digitsToNat_natToDigits]
      rw [Int.toNat_of_nonneg (le_of_not_lt hneg)]

/-- The rendering of an int never contains the separator. -/
theorem intToStr_sep_free (i : Int) : SEP ∉ intToStr i := by
  intro hmem
  by_cases hneg : i < 0
  · simp only [intToStr, if_pos hneg, natToDigits] at hmem
    rcases List.mem_cons.mp hmem with h | h
    · exact absurd h (by decide)
    · have := natDigitsAux_all_digit _ _ [] (Nat.lt_succ_self _) (by simp)
        SEP h
      exact absurd this (by decide)
  · simp only [intToStr, if_neg hneg, natToDigits] at hmem
    have := natDigitsAux_all_digit _ _ [] (Nat.lt_succ_self _) (by simp)
      SEP hmem
    exact absurd this (by decide)

theorem splitSep_ne_nil : ∀ s : Str, splitSep s ≠ [] := by
  intro s
  induction s with
  | nil => simp [splitSep]
  | cons c rest ih =>
    simp only [splitSep]
    rcases h : splitSep rest with _ | ⟨p, ps⟩
    · exact absurd h ih
    · by_cases hc : c = SEP <;> simp [hc]

theorem splitSep_pieces_sep_free :
    ∀ (s : Str) (p : Str), p ∈ splitSep s → SEP ∉ p := by
  intro s
  induction s with
  | nil =>
    intro p hp
    simp only [splitSep, List.mem_singleton] at hp
    subst hp
    simp
  | cons c rest ih =>
    intro p hp
    rcases h : splitSep rest with _ | ⟨p0, ps⟩
    · exact absurd h (splitSep_ne_nil rest)
    · by_cases hc : c = SEP
      · simp only [splitSep, h, if_pos hc] at hp
        rcases List.mem_cons.mp hp with rfl | hp
        · simp
        · exact ih p (h ▸ hp)
      · simp only [splitSep, h, if_neg hc] at hp
        rcases List.mem_cons.mp hp with rfl | hp
        · intro hmem
          rcases List.mem_cons.mp hmem with hs | hs
          · exact hc hs.symm
          · exact ih p0 (h ▸ List.mem_cons_self p0 ps) hs
        · exact ih p (h ▸ List.mem_cons_of_mem p0 hp)

theorem splitSep_sep_free_eq (a : Str) (ha : SEP ∉ a) : splitSep a = [a] := by
  induction a with
  | nil => rfl
  | cons c rest ih =>
    have hc : c ≠ SEP := by
      intro h
      subst h
      exact ha (List.mem_cons_self _ _)
    have hrest : SEP ∉ rest := fun hm => ha (List.mem_cons_of_mem _ hm)
    simp only [splitSep, ih hrest, if_neg hc]

theorem splitSep_append (a rest : Str) (ha : SEP ∉ a) :
    splitSep (a ++ SEP :: rest) = a :: splitSep rest := by
  induction a with
  | nil =>
    simp only [List.nil_append, splitSep]
    rcases h : splitSep rest with _ | ⟨p, ps⟩
    · exact absurd h (splitSep_ne_nil rest)
    · simp
  | cons c a' ih =>
    have hc : c ≠ SEP := by
      intro h
      subst h
      exact ha (List.mem_cons_self _ _)
    have ha' : SEP ∉ a' := fun hm => ha (List.mem_cons_of_mem _ hm)
    simp only [List.cons_append, splitSep, List.append_eq]
    rw [ih ha']
    simp [hc]

theorem joinSep_splitSep (s : Str) : joinSep (splitSep s) = s := by
  induction s with
  | nil => rfl
  | cons c rest ih =>
    rcases h : splitSep rest with _ | ⟨p, ps⟩
    · exact absurd h (splitSep_ne_nil rest)
    · rw [h] at ih
      by_cases hc : c = SEP
      · simp only [splitSep, h, if_pos hc]
        show SEP :: joinSep (p :: ps) = c :: rest
        rw [ih, hc]
      · simp only [splitSep, h, if_neg hc]
        cases ps with
        | nil =>
          show c :: p = c :: rest
          simp only [joinSep] at ih
          rw [ih]
        | cons q qs =>
          show (c :: p) ++ SEP :: joinSep (q :: qs) = c :: rest
          rw [List.cons_append]
          exact congrArg (List.cons c) ih

theorem splitSep_joinSep :
    ∀ (fs : List Str) (f : Str), (∀ g ∈ f :: fs, SEP ∉ g) →
      splitSep (joinSep (f :: fs)) = f :: fs := by
  intro fs
  induction fs with
  | nil =>
    intro f h
    exact splitSep_sep_free_eq f (h f (List.mem_cons_self _ _))
  | cons f' fs' ih =>
    intro f h
    show splitSep (f ++ SEP :: joinSep (f' :: fs')) = f :: f' :: fs'
    rw [splitSep_append f _ (h f (List.mem_cons_self _ _))]
    rw [ih f' (fun g hg => h g (List.mem_cons_of_mem _ hg))]

/- ===================================================================
   C7 (corrected).
   =================================================================== -/

/-- C7 counterexample: the round-trip claim as stated is false.  A
    constructible token whose string field contains the separator cannot be
    packed at all (aiogram raises); a decoded string whose page field has a
    leading zero re-encodes to a different string; and an accepted string
    longer than 64 bytes cannot be re-encoded either. -/
theorem C7_roundtrip_counterexample :
    (¬ tokenRoundTripClaim) ∧
    encode (Token.menu (("a|b").data)) = none ∧
    decode (("comic|a|b|open|01").data) =
      some (Token.comic (("a").data) (("b").data) (("open").data) 1) ∧
    encode (Token.comic (("a").data) (("b").data) (("open").data) 1) =
      some (("comic|a|b|open|1").data) ∧
    ((("comic|a|b|open|1").data : Str) ≠ ("comic|a|b|open|01").data) ∧
    decode ((("coll|").data ++ List.replicate 65 'k' ++ ("|open").data)) =
      some (Token.coll (List.replicate 65 'k') (("open").data)) ∧
    encode (Token.coll (List.replicate 65 'k') (("open").data)) = none := by
  refine ⟨?_, by decide, by decide, by decide, by decide, by decide, by decide⟩
  rintro ⟨h1, -⟩
  have hmenu := h1 (Token.menu (("a|b").data))
  rw [(by decide : encode (Token.menu (("a|b").data)) = none)] at hmenu
  exact Option.noConfusion hmenu

/-- C7 (amended): whenever `pack` accepts a token (its string fields avoid
    the separator and the packed form fits Telegram's 64 bytes), decoding
    the packed string gives the token back; and whenever `decode` accepts a
    string that is at most 64 bytes with a canonically written page field,
    re-encoding the token reproduces the string exactly. -/
theorem C7_codec_roundtrip (t : Token) (s : Str) :
    (encode t = some s → decode s = some t) ∧
    (decode s = some t → utf8Len s ≤ 64 → canonPage s = true →
      encode t = some s) := by
  constructor
  · intro h
    cases t with
    | menu a =>
      simp only [encode, packFields] at h
      by_cases hc : (∀ f ∈ [("menu").data, a], SEP ∉ f) ∧
          utf8Len (joinSep [("menu").data, a]) ≤ 64
      · rw [if_pos hc] at h
        injection h with hs
        subst hs
        simp only [decode, splitSep_joinSep [a] (("menu").data) hc.1]
        simp
      · rw [if_neg hc] at h
        exact absurd h (by simp)
    | coll ck a =>
      simp only [encode, packFields] at h
      by_cases hc : (∀ f ∈ [("coll").data, ck, a], SEP ∉ f) ∧
          utf8Len (joinSep [("coll").data, ck, a]) ≤ 64
      · rw [if_pos hc] at h
        injection h with hs
        subst hs
        simp only [decode, splitSep_joinSep [ck, a] (("coll").data) hc.1]
        simp
      · rw [if_neg hc] at h
        exact absurd h (by simp)
    | comic ck ik a p =>
      simp only [encode, packFields] at h
      by_cases hc : (∀ f ∈ [("comic").data, ck, ik, a, intToStr p], SEP ∉ f) ∧
          utf8Len (joinSep [("comic").data, ck, ik, a, intToStr p]) ≤ 64
      · rw [if_pos hc] at h
        injection h with hs
        subst hs
        simp only [decode,
          splitSep_joinSep [ck, ik, a, intToStr p] (("comic").data) hc.1]
        simp [parseIntStr_intToStr]
      · rw [if_neg hc] at h
        exact absurd h (by simp)
  · intro h hsize hcanon
    have hjs := joinSep_splitSep s
    rcases hsp : splitSep s with _ | ⟨p0, l1⟩
    · exact absurd hsp (splitSep_ne_nil s)
    rcases l1 with _ | ⟨p1, l2⟩
    · simp only [decode, hsp] at h
      exact Option.noConfusion h
    rcases l2 with _ | ⟨p2, l3⟩
    · -- menu shape
      simp only [decode, hsp] at h
      by_cases hp : p0 = ("menu").data
      · rw [if_pos hp] at h
        injection h with ht
        subst ht
        rw [hsp] at hjs
        show packFields [("menu").data, p1] = some s
        rw [← hp]
        simp only [packFields]
        have hcond : (∀ f ∈ [p0, p1], SEP ∉ f) ∧
            utf8Len (joinSep [p0, p1]) ≤ 64 := by
          constructor
          · intro f hf
            refine splitSep_pieces_sep_free s f ?_
            rw [hsp]
            exact hf
          · rw [hjs]
            exact hsize
        rw [if_pos hcond]
        exact congrArg some hjs
      · rw [if_neg hp] at h
        exact Option.noConfusion h
    rcases l3 with _ | ⟨p3, l4⟩
    · -- coll shape
      simp only [decode, hsp] at h
      by_cases hp : p0 = ("coll").data
      · rw [if_pos hp] at h
        injection h with ht
        subst ht
        rw [hsp] at hjs
        show packFields [("coll").data, p1, p2] = some s
        rw [← hp]
        simp only [packFields]
        have hcond : (∀ f ∈ [p0, p1, p2], SEP ∉ f) ∧
            utf8Len (joinSep [p0, p1, p2]) ≤ 64 := by
          constructor
          · intro f hf
            refine splitSep_pieces_sep_free s f ?_
            rw [hsp]
            exact hf
          · rw [hjs]
            exact hsize
        rw [if_pos hcond]
        exact congrArg some hjs
      · rw [if_neg hp] at h
        exact Option.noConfusion h
    rcases l4 with _ | ⟨p4, l5⟩
    · simp only [decode, hsp] at h
      exact Option.noConfusion h
    rcases l5 with _ | ⟨p5, l6⟩
    · -- comic shape
      simp only [decode, hsp] at h
      by_cases hp : p0 = ("comic").data
      · rw [if_pos hp] at h
        rcases hpi : parseIntStr p4 with _ | n
        · rw [hpi] at h
          exact Option.noConfusion h
        · rw [hpi] at h
          injection (show some (Token.comic p1 p2 p3 n) = some t from h) with ht
          subst ht
          rw [hsp] at hjs
          have hcan : intToStr n = p4 := by
            simp only [canonPage, hsp, hpi] at hcanon
            exact of_decide_eq_true hcanon
          show packFields [("comic").data, p1, p2, p3, intToStr n] = some s
          rw [← hp, hcan]
          simp only [packFields]
          have hcond : (∀ f ∈ [p0, p1, p2, p3, p4], SEP ∉ f) ∧
              utf8Len (joinSep [p0, p1, p2, p3, p4]) ≤ 64 := by
            constructor
            · intro f hf
              refine splitSep_pieces_sep_free s f ?_
              rw [hsp]
              exact hf
            · rw [hjs]
              exact hsize
          rw [if_pos hcond]
          exact congrArg some hjs
      · rw [if_neg hp] at h
        exact Option.noConfusion h
    · simp only [decode, hsp] at h
      exact Option.noConfusion h

/-- C7 witness: a realistic token round-trips both ways, hypotheses
    discharged concretely (no separator in fields, 23 bytes ≤ 64, canonical
    page "3"). -/
theorem C7_codec_roundtrip_witness :
    decode (("comic|dc|batman|read|3").data) =
      some (Token.comic (("dc").data) (("batman").data) (("read").data) 3) ∧
    encode (Token.comic (("dc").data) (("batman").data) (("read").data) 3) =
      some (("comic|dc|batman|read|3").data) := by
  constructor
  · exact (C7_codec_roundtrip
      (Token.comic (("dc").data) (("batman").data) (("read").data) 3)
      (("comic|dc|batman|read|3").data)).1 (by decide)
  · exact (C7_codec_roundtrip
      (Token.comic (("dc").data) (("batman").data) (("read").data) 3)
      (("comic|dc|batman|read|3").data)).2 (by decide) (by decide) (by decide)

/- ===================================================================
   C10
   =================================================================== -/

theorem lookupK_none_of_not_mem {β : Type _} (k : Str) :
    ∀ (l : List (Str × β)), k ∉ l.map Prod.fst → lookupK k l = none := by
  intro l
  induction l with
  | nil => intro _; rfl
  | cons e rest ih =>
    intro hk
    simp only [List.map_cons, List.mem_cons] at hk
    push_neg at hk
    simp only [lookupK]
    rw [if_neg (fun h => hk.1 h.symm)]
    exact ih hk.2

theorem removeKey_lookup_ne (ik k : Str) (h : k ≠ ik) :
    ∀ old : FlatLinks, lookupK k (removeKey ik old) = lookupK k old := by
  intro old
  induction old with
  | nil => rfl
  | cons e rest ih =>
    rcases e with ⟨k', v⟩
    simp only [removeKey, lookupK]
    by_cases hk' : k' = ik
    · rw [if_pos hk']
      rw [if_neg (show ¬ k' = k by rw [hk']; exact fun hh => h hh.symm)]
    · rw [if_neg hk']
      simp only [lookupK]
      by_cases hkk : k' = k
      · rw [if_pos hkk, if_pos hkk]
      · rw [if_neg hkk, if_neg hkk]
        exact ih

theorem removeKey_sublist (ik : Str) :
    ∀ old : FlatLinks, (removeKey ik old).Sublist old := by
  intro old
  induction old with
  | nil => exact List.Sublist.refl []
  | cons e rest ih =>
    rcases e with ⟨k', v⟩
    simp only [removeKey]
    by_cases hk' : k' = ik
    · rw [if_pos hk']
      exact List.sublist_cons_self _ _
    · rw [if_neg hk']
      exact ih.cons₂ _

theorem removeKey_self_none (ik : Str) :
    ∀ old : FlatLinks, (old.map Prod.fst).Nodup →
      lookupK ik (removeKey ik old) = none := by
  intro old
  induction old with
  | nil => intro _; rfl
  | cons e rest ih =>
    rcases e with ⟨k', v⟩
    intro hn
    simp only [List.map_cons, List.nodup_cons] at hn
    simp only [removeKey]
    by_cases hk' : k' = ik
    · rw [if_pos hk']
      refine lookupK_none_of_not_mem ik rest ?_
      rw [← hk']
      exact hn.1
    · rw [if_neg hk']
      simp only [lookupK]
      rw [if_neg hk']
      exact ih hn.2

/-- What ends up in one collection's new dict: exactly the comics of that
    collection that were still available, with their chapters unchanged. -/
theorem moveComics_fst_lookup :
    ∀ (ks : List Str) (old : FlatLinks) (k : Str),
      lookupK k (moveComics ks old).1 =
        if k ∈ ks then lookupK k old else none := by
  intro ks
  induction ks with
  | nil =>
    intro old k
    simp [moveComics, lookupK]
  | cons ik rest ih =>
    intro old k
    rcases hik : lookupK ik old with _ | v
    · simp only [moveComics, hik]
      rw [ih old k]
      by_cases hk : k = ik
      · subst hk
        by_cases hr : k ∈ rest
        · simp [hr]
        · simp [hr, hik]
      · by_cases hr : k ∈ rest
        · simp [hr, List.mem_cons, hk]
        · have : k ∉ ik :: rest := by
            simp [List.mem_cons, hk, hr]
          simp [hr, this]
    · simp only [moveComics, hik]
      simp only [lookupK]
      by_cases hk : ik = k
      · subst hk
        rw [if_pos rfl]
        simp [hik]
      · rw [if_neg hk]
        rw [ih (removeKey ik old) k]
        have hkik : k ≠ ik := fun h => hk h.symm
        by_cases hr : k ∈ rest
        · rw [if_pos hr, if_pos (List.mem_cons_of_mem _ hr)]
          exact removeKey_lookup_ne ik k hkik old
        · rw [if_neg hr, if_neg (by simp [List.mem_cons, hkik, hr])]

/-- What is left of the flat old links after a collection is processed:
    everything except that collection's comics. -/
theorem moveComics_snd_lookup :
    ∀ (ks : List Str) (old : FlatLinks), (old.map Prod.fst).Nodup →
      ∀ k : Str, lookupK k (moveComics ks old).2 =
        if k ∈ ks then none else lookupK k old := by
  intro ks
  induction ks with
  | nil =>
    intro old _ k
    simp [moveComics]
  | cons ik rest ih =>
    intro old hn k
    rcases hik : lookupK ik old with _ | v
    · simp only [moveComics, hik]
      rw [ih old hn k]
      by_cases hk : k = ik
      · subst hk
        by_cases hr : k ∈ rest
        · simp [hr]
        · simp [hr, hik]
      · by_cases hr : k ∈ rest
        · simp [hr, List.mem_cons]
        · have : k ∉ ik :: rest := by
            simp [List.mem_cons, hk, hr]
          simp [hr, this]
    · simp only [moveComics, hik]
      have hn' : ((removeKey ik old).map Prod.fst).Nodup :=
        ((removeKey_sublist ik old).map Prod.fst).nodup hn
      rw [ih (removeKey ik old) hn' k]
      by_cases hk : k = ik
      · subst hk
        by_cases hr : k ∈ rest
        · simp [hr]
        · rw [if_neg hr, if_pos (List.mem_cons_self _ _)]
          exact removeKey_self_none k old hn
      · by_cases hr : k ∈ rest
        · simp [hr, List.mem_cons]
        · rw [if_neg hr, if_neg (by simp [List.mem_cons, hk, hr])]
          exact removeKey_lookup_ne ik k hk old

theorem moveComics_snd_sublist :
    ∀ (ks : List Str) (old : FlatLinks), (moveComics ks old).2.Sublist old := by
  intro ks
  induction ks with
  | nil => intro old; exact List.Sublist.refl _
  | cons ik rest ih =>
    intro old
    rcases hik : lookupK ik old with _ | v
    · simp only [moveComics, hik]
      exact ih old
    · simp only [moveComics, hik]
      exact (ih (removeKey ik old)).trans (removeKey_sublist ik old)

theorem firstCollectionOf_mem :
    ∀ (data : RCatalog) (k c : Str), firstCollectionOf data k = some c →
      c ∈ data.map Prod.fst := by
  intro data
  induction data with
  | nil => intro k c h; exact absurd h (by simp [firstCollectionOf])
  | cons e rest ih =>
    rcases e with ⟨ck0, oc⟩
    intro k c h
    cases oc with
    | none =>
      simp only [firstCollectionOf] at h
      exact List.mem_cons_of_mem _ (ih k c h)
    | some keys =>
      simp only [firstCollectionOf] at h
      by_cases hk : k ∈ keys
      · rw [if_pos hk] at h
        injection h with h
        subst h
        exact List.mem_cons_self _ _
      · rw [if_neg hk] at h
        exact List.mem_cons_of_mem _ (ih k c h)

/-- The heart of C10: a comic key is found in the rebuilt nested document
    under a collection exactly when that collection is the first one whose
    comics contain it and the old flat links held it — with the chapter map
    unchanged. -/
theorem restructureGo_lookup :
    ∀ (data : RCatalog) (old : FlatLinks), (data.map Prod.fst).Nodup →
      (old.map Prod.fst).Nodup → ∀ (ck k : Str) (v : ChapLinks),
      (lookupK k ((lookupK ck (restructureGo data old).1).getD []) = some v ↔
        (firstCollectionOf data k = some ck ∧ lookupK k old = some v)) := by
  intro data
  induction data with
  | nil =>
    intro old _ _ ck k v
    simp [restructureGo, firstCollectionOf, lookupK]
  | cons e rest ih =>
    rcases e with ⟨ck0, oc⟩
    intro old hd ho ck k v
    simp only [List.map_cons, List.nodup_cons] at hd
    cases oc with
    | none =>
      simp only [restructureGo, firstCollectionOf]
      exact ih old hd.2 ho ck k v
    | some keys =>
      simp only [restructureGo, firstCollectionOf, lookupK]
      have hsnd : ((moveComics keys old).2.map Prod.fst).Nodup :=
        ((moveComics_snd_sublist keys old).map Prod.fst).nodup ho
      by_cases hck : ck0 = ck
      · rw [if_pos hck]
        simp only [Option.getD_some]
        rw [moveComics_fst_lookup keys old k]
        by_cases hk : k ∈ keys
        · rw [if_pos hk, if_pos hk]
          constructor
          · intro h
            exact ⟨by rw [hck], h⟩
          · intro h
            exact h.2
        · rw [if_neg hk, if_neg hk]
          constructor
          · intro h
            exact absurd h (by simp)
          · rintro ⟨hfirst, -⟩
            have hmem := firstCollectionOf_mem rest k ck hfirst
            rw [← hck] at hmem
            exact absurd hmem hd.1
      · rw [if_neg hck]
        rw [ih (moveComics keys old).2 hd.2 hsnd ck k v]
        rw [moveComics_snd_lookup keys old ho k]
        by_cases hk : k ∈ keys
        · rw [if_pos hk, if_pos hk]
          constructor
          · rintro ⟨-, h⟩
            exact absurd h (by simp)
          · rintro ⟨h, -⟩
            injection h with h
            exact absurd h hck
        · rw [if_neg hk, if_neg hk]

/-- C10: when both documents load non-empty, the restructuring produces the
    nested document in which a comic's chapter map is found under a
    collection exactly when that collection is the first (in catalog
    iteration order) whose comics contain the comic key and the old flat
    links held that key — so each matched comic lands under exactly one
    collection with its chapter map unchanged, and no unmatched comic key
    appears at all. -/
theorem C10_restructure_links (data : RCatalog) (old : FlatLinks)
    (hd : (data.map Prod.fst).Nodup) (ho : (old.map Prod.fst).Nodup)
    (hdne : data ≠ []) (hone : old ≠ []) :
    restructure_links data old = some (restructureGo data old).1 ∧
    ∀ (ck k : Str) (v : ChapLinks),
      lookupK k ((lookupK ck (restructureGo data old).1).getD []) = some v ↔
        (firstCollectionOf data k = some ck ∧ lookupK k old = some v) := by
  constructor
  · simp [restructure_links, hdne, hone]
  · exact restructureGo_lookup data old hd ho

/-- C10 witness: "batman" is in both collections' comics but lands only
    under "dc" (the first), with its chapters untouched; "orphan" (absent
    from every collection) does not appear; the invalid collection entry is
    skipped. -/
theorem C10_restructure_links_witness :
    restructure_links
      [(("dc").data, some [("batman").data, ("flash").data]),
       (("bad").data, none),
       (("marvel").data, some [("batman").data, ("xmen").data])]
      [(("batman").data, [(("ch1").data, [("u").data])]),
       (("orphan").data, [])] =
      some [(("dc").data, [(("batman").data, [(("ch1").data, [("u").data])])]),
            (("marvel").data, [])] ∧
    lookupK (("batman").data)
      ((lookupK (("dc").data)
        (restructureGo
          [(("dc").data, some [("batman").data, ("flash").data]),
           (("bad").data, none),
           (("marvel").data, some [("batman").data, ("xmen").data])]
          [(("batman").data, [(("ch1").data, [("u").data])]),
           (("orphan").data, [])]).1).getD []) =
      some [(("ch1").data, [("u").data])] := by
  constructor
  · have h := (C10_restructure_links
      [(("dc").data, some [("batman").data, ("flash").data]),
       (("bad").data, none),
       (("marvel").data, some [("batman").data, ("xmen").data])]
      [(("batman").data, [(("ch1").data, [("u").data])]),
       (("orphan").data, [])]
      (by decide) (by decide) (by decide) (by decide)).1
    exact h.trans (by rfl)
  · exact ((C10_restructure_links
      [(("dc").data, some [("batman").data, ("flash").data]),
       (("bad").data, none),
       (("marvel").data, some [("batman").data, ("xmen").data])]
      [(("batman").data, [(("ch1").data, [("u").data])]),
       (("orphan").data, [])]
      (by decide) (by decide) (by decide) (by decide)).2
      (("dc").data) (("batman").data) [(("ch1").data, [("u").data])]).mpr
      ⟨by decide, by rfl⟩

end CB
